import Mathlib

/-! # go-multimap: a shallow embedding of `multimap/multimap.go`

The Go type `MultiMap` wraps one native map `m map[interface{}][]interface{}`.

Modelling decisions, all taken from the source:

* `interface{}` keys and values become type parameters `K` and `V` with decidable
  equality: the base model covers the dynamic values on which Go's `==` is reflexive.
  Go's `==` is not reflexive on a float NaN; namespace `Iface` repeats the lookup,
  `Put` and the membership queries over an arbitrary test `GoEq.eq`, and the statements
  that depend on reflexivity are made there.
* The native map is an association list `List (K × List V)`.  The order of the list is
  the order in which one `range` over the map visits the entries.  A Go map never holds
  a key twice; that representation invariant is `MultiMap.WF`.
* A bucket (`[]interface{}`) is the list of the elements visible through the slice
  header.  Buckets of different keys never share a backing array (each one starts with
  `make` in `Put` and only grows by `append`).  The one place where the source writes
  into a backing array while still reading it is the loop of `Remove`; there the
  backing array is modelled explicitly.  A caller can hold a slice returned by `Get`
  and pass it back to `PutAll`; namespace `Alias` models slice headers over a heap of
  backing arrays for that case.
* `make([]interface{}, n)` is a list of `n` nil interfaces, `none`; an indexed store
  outside the slice is a run-time panic, `none` at the level of the whole result.
* Go `int` is `Nat`: every count here is bounded by the number of stored elements.
-/

/-- The Go struct `MultiMap`: its single field `m`, the native map. -/
structure MultiMap (K V : Type) where
  m : List (K × List V)
deriving DecidableEq, Repr

namespace MultiMap

variable {K V : Type} [DecidableEq K]

/-! ## The native map -/

/-- One-value index expression `m[key]`: the stored bucket, or the nil slice. -/
def mapIndex : List (K × List V) → K → List V
  | [], _ => []
  | (k, vs) :: rest, key => if k = key then vs else mapIndex rest key

/-- Comma-ok index expression `values, found := m[key]`. -/
def mapIndex2 : List (K × List V) → K → List V × Bool
  | [], _ => ([], false)
  | (k, vs) :: rest, key => if k = key then (vs, true) else mapIndex2 rest key

/-- Assignment `m[key] = x`: overwrites the entry of `key`, or adds a new entry. -/
def mapAssign : List (K × List V) → K → List V → List (K × List V)
  | [], key, x => [(key, x)]
  | (k, vs) :: rest, key, x =>
    if k = key then (k, x) :: rest else (k, vs) :: mapAssign rest key x

/-- Builtin `delete(m, key)`: no entry of `key` is left. -/
def mapDelete : List (K × List V) → K → List (K × List V)
  | [], _ => []
  | (k, vs) :: rest, key =>
    if k = key then mapDelete rest key else (k, vs) :: mapDelete rest key

/-- Representation invariant of a Go map: no key occurs twice. -/
def WF (m : MultiMap K V) : Prop := (m.m.map Prod.fst).Nodup

instance (m : MultiMap K V) : Decidable (WF m) := by
  unfold WF; infer_instance

/-- The data-model invariant of the specification: no stored bucket is empty. -/
def NoEmptyBucket (m : MultiMap K V) : Prop := ∀ e ∈ m.m, e.2.length ≠ 0

instance (m : MultiMap K V) : Decidable (NoEmptyBucket m) := by
  unfold NoEmptyBucket; infer_instance

/-! ## Slices -/

/-- Indexed store `s[i] = x`; `none` is the index-out-of-range panic. -/
def sliceStore {α : Type} (s : List α) (i : Nat) (x : α) : Option (List α) :=
  if i < s.length then some (s.set i x) else none

/-- Builtin `make([]interface{}, n)`: `n` nil interfaces. -/
def makeSlice (α : Type) (n : Nat) : List (Option α) := List.replicate n none

/-! ## Operations of `multimap.go` -/

/-- Function `New`: a multimap over an empty map. -/
def New : MultiMap K V := ⟨[]⟩

/-- Method `Get`: the bucket of `key` and whether the key was found. -/
def Get (m : MultiMap K V) (key : K) : List V × Bool :=
  mapIndex2 m.m key

/-- Method `Put`: `append` the value to the bucket found, or to a fresh empty slice. -/
def Put (m : MultiMap K V) (key : K) (value : V) : MultiMap K V :=
  match mapIndex2 m.m key with
  | (values, true) => ⟨mapAssign m.m key (values ++ [value])⟩
  | (_, false) =>
    let values : List V := []
    ⟨mapAssign m.m key (values ++ [value])⟩

/-- Method `PutAll`: `for _, value := range values { m.Put(key, value) }`.  The list
is the sequence of values the loop reads, one per iteration.  When the argument slice
shares its backing array with the bucket of `key`, that sequence can differ from the
elements of the slice at the time of the call; see `Alias.PutAll`. -/
def PutAll (m : MultiMap K V) (key : K) : List V → MultiMap K V
  | [] => m
  | value :: rest => PutAll (Put m key value) key rest

/-- The `range` loop of `Contains`, with both `return` statements as written. -/
def Contains.loop [DecidableEq V] (value : V) (found : Bool) : List V → Bool
  | [] => false && found
  | v :: rest => if v = value then true && found else Contains.loop value found rest

/-- Method `Contains`: the comma-ok lookup followed by the loop. -/
def Contains [DecidableEq V] (m : MultiMap K V) (key : K) (value : V) : Bool :=
  match mapIndex2 m.m key with
  | (values, found) => Contains.loop value found values

/-- Method `ContainsKey`: the `found` flag of the comma-ok index expression. -/
def ContainsKey (m : MultiMap K V) (key : K) : Bool :=
  (mapIndex2 m.m key).2

/-- Inner `range` loop of `ContainsValue`: `true` when it executes `return true`. -/
def ContainsValue.inner [DecidableEq V] (value : V) : List V → Bool
  | [] => false
  | v :: rest => if v = value then true else ContainsValue.inner value rest

/-- Outer `range` loop of `ContainsValue` over the entries of the map. -/
def ContainsValue.outer [DecidableEq V] (value : V) : List (K × List V) → Bool
  | [] => false
  | (_, values) :: rest =>
    if ContainsValue.inner value values then true else ContainsValue.outer value rest

/-- Method `ContainsValue`: the nested loops over the whole map. -/
def ContainsValue [DecidableEq V] (m : MultiMap K V) (value : V) : Bool :=
  ContainsValue.outer value m.m

/-- The loop `for i, v := range values` of `Remove`.

`values` is a slice header of length `n`; the loop visits `i = 0 .. n-1` and reads
`v` from the backing array at the time of the visit.  `backing` is the window of the
backing array under that header (always `n` elements).  On a match,
`append(values[:i], values[i+1:]...)` has room in place: it moves the elements
`i+1 .. n-1` one slot to the left, leaves slot `n-1` as it was, and returns a slice of
the `n-1` first slots, which is stored under `key`.  The `none` case of the read is
not reachable, since `i < n`. -/
def Remove.loop [DecidableEq V] (key : K) (value : V) (n : Nat) :
    List Nat → List V → List (K × List V) → List (K × List V)
  | [], _, mm => mm
  | i :: is, backing, mm =>
    match backing[i]? with
    | none => mm
    | some v =>
      if v = value then
        let s := backing.take i ++ backing.drop (i + 1)
        Remove.loop key value n is (s ++ backing.drop (n - 1)) (mapAssign mm key s)
      else
        Remove.loop key value n is backing mm

/-- Method `Remove`: the loop when the key is found, then the deletion of an empty bucket. -/
def Remove [DecidableEq V] (m : MultiMap K V) (key : K) (value : V) : MultiMap K V :=
  let mm :=
    match mapIndex2 m.m key with
    | (values, true) =>
      Remove.loop key value values.length (List.range values.length) values m.m
    | (_, false) => m.m
  if (mapIndex mm key).length = 0 then ⟨mapDelete mm key⟩ else ⟨mm⟩

/-- Method `RemoveAll`: `delete(m.m, key)`. -/
def RemoveAll (m : MultiMap K V) (key : K) : MultiMap K V :=
  ⟨mapDelete m.m key⟩

/-- Method `Size`: the loop `size += len(values)` over the entries, from `size := 0`. -/
def Size (m : MultiMap K V) : Nat :=
  m.m.foldl (fun size e => size + e.2.length) 0

/-- Method `Empty`: `m.Size() == 0`. -/
def Empty (m : MultiMap K V) : Bool :=
  Size m == 0

/-- Inner loop shared by `Keys`, `Values` and `Entries`: for each value of the bucket,
store `f key value` at index `count` and increment `count`. -/
def fillBucket {β : Type} (f : K → V → β) (key : K) :
    List V → List (Option β) × Nat → Option (List (Option β) × Nat)
  | [], st => some st
  | value :: rest, (out, count) =>
    match sliceStore out count (some (f key value)) with
    | none => none
    | some out1 => fillBucket f key rest (out1, count + 1)

/-- Outer loop shared by `Keys`, `Values` and `Entries`: `for key, values := range m.m`. -/
def fillAll {β : Type} (f : K → V → β) :
    List (K × List V) → List (Option β) × Nat → Option (List (Option β) × Nat)
  | [], st => some st
  | (key, values) :: rest, st =>
    match fillBucket f key values st with
    | none => none
    | some st1 => fillAll f rest st1

/-- Method `Keys`: a slice of `m.Size()` elements, filled with the key of every pair. -/
def Keys (m : MultiMap K V) : Option (List (Option K)) :=
  (fillAll (fun key _ => key) m.m (makeSlice K (Size m), 0)).map Prod.fst

/-- The loop of `KeySet`: `keys[count] = key; count++` for every key of the map. -/
def KeySet.loop :
    List (K × List V) → List (Option K) × Nat → Option (List (Option K) × Nat)
  | [], st => some st
  | (key, _) :: rest, (keys, count) =>
    match sliceStore keys count (some key) with
    | none => none
    | some keys1 => KeySet.loop rest (keys1, count + 1)

/-- Method `KeySet`: a slice of `len(m.m)` elements, filled with the keys of the map. -/
def KeySet (m : MultiMap K V) : Option (List (Option K)) :=
  (KeySet.loop m.m (makeSlice K m.m.length, 0)).map Prod.fst

/-- Method `Values`: a slice of `m.Size()` elements, filled with the value of every pair. -/
def Values (m : MultiMap K V) : Option (List (Option V)) :=
  (fillAll (fun _ value => value) m.m (makeSlice V (Size m), 0)).map Prod.fst

/-- Method `Entries`: a slice of `m.Size()` elements, filled with every pair as a
`struct{key, value}`. -/
def Entries (m : MultiMap K V) : Option (List (Option (K × V))) :=
  (fillAll (fun key value => (key, value)) m.m (makeSlice (K × V) (Size m), 0)).map Prod.fst

/-- Method `Clear`: the field is replaced by a fresh empty map. -/
def Clear (_m : MultiMap K V) : MultiMap K V := ⟨[]⟩

/-! ## Derived notions used by the statements -/

/-- State of `main` in `example/example.go` after its five calls of `Put`. -/
def mainAfterPut : MultiMap Nat String :=
  Put (Put (Put (Put (Put New 3 "c") 4 "d") 1 "x") 2 "b") 1 "a"

/-- State of `main` after `m.Remove(4, "d")` and `m.RemoveAll(1)`. -/
def mainAfterRemove : MultiMap Nat String :=
  RemoveAll (Remove mainAfterPut 4 "d") 1

/-- State of `main` after `m.Clear()`. -/
def mainAfterClear : MultiMap Nat String :=
  Clear mainAfterRemove

/-- States reachable from `New()` by the five mutating operations. -/
inductive Reachable [DecidableEq V] : MultiMap K V → Prop
  | new : Reachable New
  | put (m : MultiMap K V) (k : K) (v : V) : Reachable m → Reachable (Put m k v)
  | putAll (m : MultiMap K V) (k : K) (vs : List V) :
      Reachable m → Reachable (PutAll m k vs)
  | remove (m : MultiMap K V) (k : K) (v : V) : Reachable m → Reachable (Remove m k v)
  | removeAll (m : MultiMap K V) (k : K) : Reachable m → Reachable (RemoveAll m k)
  | clear (m : MultiMap K V) : Reachable m → Reachable (Clear m)


/-! ## Keys and values under Go's `==` -/

/-- Go's `==` on the dynamic values of `interface{}`, as a boolean test.  It need not
be reflexive: a float NaN is not equal to itself.  The native map finds a key with this
test, so a NaN key is never found. -/
class GoEq (α : Type) where
  eq : α → α → Bool

/-- Some dynamic values an `interface{}` can hold: the integers and the float NaN. -/
inductive GoVal where
  | int (n : Nat)
  | nan
deriving DecidableEq, Repr

/-- Go's `==` on these values: integers compare by value, NaN equals nothing. -/
def GoVal.goEq : GoVal → GoVal → Bool
  | .int a, .int b => decide (a = b)
  | _, _ => false

instance : GoEq GoVal := ⟨GoVal.goEq⟩

/-- The test `==` on a type of values where it is the (reflexive) equality: the case
covered by the base model. -/
def lawfulGoEq (α : Type) [DecidableEq α] : GoEq α := ⟨fun a b => decide (a = b)⟩

namespace Iface

variable {K V : Type}

/-- Comma-ok index expression `values, found := m[key]`, the key found by `==`. -/
def mapIndex2 [GoEq K] : List (K × List V) → K → List V × Bool
  | [], _ => ([], false)
  | (k, vs) :: rest, key => if GoEq.eq k key then (vs, true) else mapIndex2 rest key

/-- Assignment `m[key] = x`: overwrites the entry whose key `==` `key`, or adds a new
entry.  On an overwrite the runtime also stores `key` as the key of the entry (maps
keyed by an interface type update the key). -/
def mapAssign [GoEq K] : List (K × List V) → K → List V → List (K × List V)
  | [], key, x => [(key, x)]
  | (k, vs) :: rest, key, x =>
    if GoEq.eq k key then (key, x) :: rest else (k, vs) :: mapAssign rest key x

/-- Method `Get` under `GoEq.eq`. -/
def Get [GoEq K] (m : MultiMap K V) (key : K) : List V × Bool :=
  mapIndex2 m.m key

/-- Method `Put` under `GoEq.eq`: `append` the value to the bucket found, or to a fresh
empty slice. -/
def Put [GoEq K] (m : MultiMap K V) (key : K) (value : V) : MultiMap K V :=
  match mapIndex2 m.m key with
  | (values, true) => ⟨mapAssign m.m key (values ++ [value])⟩
  | (_, false) =>
    let values : List V := []
    ⟨mapAssign m.m key (values ++ [value])⟩

/-- Sequential calls `m.Put(key, v)` for each `v` of `vs`, in order. -/
def putEach [GoEq K] (m : MultiMap K V) (key : K) (vs : List V) : MultiMap K V :=
  vs.foldl (fun acc v => Put acc key v) m

/-- The `range` loop of `Contains`, the test `v == value` being `GoEq.eq`. -/
def Contains.loop [GoEq V] (value : V) (found : Bool) : List V → Bool
  | [] => false && found
  | v :: rest =>
    if GoEq.eq v value then true && found else Contains.loop value found rest

/-- Method `Contains` under `GoEq.eq`. -/
def Contains [GoEq K] [GoEq V] (m : MultiMap K V) (key : K) (value : V) : Bool :=
  match mapIndex2 m.m key with
  | (values, found) => Contains.loop value found values

/-- Method `ContainsKey` under `GoEq.eq`. -/
def ContainsKey [GoEq K] (m : MultiMap K V) (key : K) : Bool :=
  (mapIndex2 m.m key).2

/-- Inner `range` loop of `ContainsValue`, the test `v == value` being `GoEq.eq`. -/
def ContainsValue.inner [GoEq V] (value : V) : List V → Bool
  | [] => false
  | v :: rest => if GoEq.eq v value then true else ContainsValue.inner value rest

/-- Outer `range` loop of `ContainsValue` over the entries of the map. -/
def ContainsValue.outer [GoEq V] (value : V) : List (K × List V) → Bool
  | [] => false
  | (_, values) :: rest =>
    if ContainsValue.inner value values then true else ContainsValue.outer value rest

/-- Method `ContainsValue` under `GoEq.eq`. -/
def ContainsValue [GoEq V] (m : MultiMap K V) (value : V) : Bool :=
  ContainsValue.outer value m.m

/-- Representation invariant of a Go map under `==`: no stored key equals a later one. -/
def DistinctKeys [GoEq K] (m : MultiMap K V) : Prop :=
  (m.m.map Prod.fst).Pairwise (fun a b => GoEq.eq a b = false)

instance [GoEq K] (m : MultiMap K V) : Decidable (DistinctKeys m) := by
  unfold DistinctKeys; infer_instance

/-- Every stored key equals itself: the map holds no NaN key. -/
def KeysReflexive [GoEq K] (m : MultiMap K V) : Prop :=
  ∀ e ∈ m.m, GoEq.eq e.1 e.1 = true

instance [GoEq K] (m : MultiMap K V) : Decidable (KeysReflexive m) := by
  unfold KeysReflexive; infer_instance

end Iface

/-! ## Slice headers over a heap of backing arrays -/

namespace Alias

/-- A Go slice header: the backing array (its index in the heap), length, capacity. -/
structure Slice where
  arr : Nat
  len : Nat
  cap : Nat
deriving DecidableEq, Repr

/-- Program state: the backing arrays allocated so far, each with as many slots as its
capacity, and the native map from keys to slice headers.  A caller holds slice headers
into the same heap. -/
structure State (K V : Type) where
  heap : List (List V)
  m : List (K × Slice)
deriving DecidableEq, Repr

variable {K V : Type} [DecidableEq K]

/-- The nil slice, also the result of `make([]interface{}, 0)`: length and capacity
0, so its array is never read or written. -/
def nilSlice : Slice := ⟨0, 0, 0⟩

/-- The elements visible through a slice header. -/
def view (heap : List (List V)) (s : Slice) : List V :=
  (heap.getD s.arr []).take s.len

/-- Capacity chosen by `append` when the array is full (runtime `growslice`, for
capacities below 256): the double of the old capacity, or the needed length when that
is larger. -/
def growCap (oldCap needed : Nat) : Nat :=
  if oldCap + oldCap < needed then needed else oldCap + oldCap

/-- Builtin `append(s, value)`: writes into the backing array when there is room,
otherwise copies the visible elements into a new array.  Unwritten slots hold
`default`, the nil interface. -/
def appendOne [Inhabited V] (heap : List (List V)) (s : Slice) (value : V) :
    List (List V) × Slice :=
  if s.len + 1 ≤ s.cap then
    (heap.set s.arr ((heap.getD s.arr []).set s.len value), ⟨s.arr, s.len + 1, s.cap⟩)
  else
    (heap ++ [view heap s ++ [value]
        ++ List.replicate (growCap s.cap (s.len + 1) - (s.len + 1)) default],
      ⟨heap.length, s.len + 1, growCap s.cap (s.len + 1)⟩)

/-- One-value index expression `m[key]` on slice headers. -/
def mapIndex : List (K × Slice) → K → Slice
  | [], _ => nilSlice
  | (k, s) :: rest, key => if k = key then s else mapIndex rest key

/-- Comma-ok index expression `values, found := m[key]` on slice headers. -/
def mapIndex2 : List (K × Slice) → K → Slice × Bool
  | [], _ => (nilSlice, false)
  | (k, s) :: rest, key => if k = key then (s, true) else mapIndex2 rest key

/-- Assignment `m[key] = s` on slice headers. -/
def mapAssign : List (K × Slice) → K → Slice → List (K × Slice)
  | [], key, x => [(key, x)]
  | (k, s) :: rest, key, x =>
    if k = key then (k, x) :: rest else (k, s) :: mapAssign rest key x

/-- Builtin `delete(m, key)` on slice headers. -/
def mapDelete : List (K × Slice) → K → List (K × Slice)
  | [], _ => []
  | (k, s) :: rest, key =>
    if k = key then mapDelete rest key else (k, s) :: mapDelete rest key

/-- Function `New`: no array, an empty map. -/
def New : State K V := ⟨[], []⟩

/-- Method `Get`: the stored slice header itself, not a copy of the elements. -/
def Get (st : State K V) (key : K) : Slice × Bool :=
  mapIndex2 st.m key

/-- Method `Put`: `m.m[key] = append(values, value)`. -/
def Put [Inhabited V] (st : State K V) (key : K) (value : V) : State K V :=
  match mapIndex2 st.m key with
  | (values, true) =>
    ⟨(appendOne st.heap values value).1, mapAssign st.m key (appendOne st.heap values value).2⟩
  | (_, false) =>
    let values : Slice := nilSlice
    ⟨(appendOne st.heap values value).1, mapAssign st.m key (appendOne st.heap values value).2⟩

/-- The loop `for _, value := range values` of `PutAll`: the header `values` is fixed
when the loop starts, and element `i` is read from the backing array at iteration `i`.
The `none` case of the read is not reachable, since `i < len ≤ cap`. -/
def PutAll.loop [Inhabited V] (key : K) (values : Slice) :
    List Nat → State K V → State K V
  | [], st => st
  | i :: is, st =>
    match (st.heap.getD values.arr [])[i]? with
    | none => st
    | some value => PutAll.loop key values is (Put st key value)

/-- Method `PutAll` on a slice header. -/
def PutAll [Inhabited V] (st : State K V) (key : K) (values : Slice) : State K V :=
  PutAll.loop key values (List.range values.len) st

/-- The loop `for i, v := range values` of `Remove` on the heap: on a match,
`append(values[:i], values[i+1:]...)` moves the slots `i+1 .. len-1` of the array one
to the left and the header of length `len - 1` is stored under `key`. -/
def Remove.loop [DecidableEq V] (key : K) (value : V) (values : Slice) :
    List Nat → State K V → State K V
  | [], st => st
  | i :: is, st =>
    match (st.heap.getD values.arr [])[i]? with
    | none => st
    | some v =>
      if v = value then
        Remove.loop key value values is
          ⟨st.heap.set values.arr
              ((st.heap.getD values.arr []).take i
                ++ ((st.heap.getD values.arr []).take values.len).drop (i + 1)
                ++ (st.heap.getD values.arr []).drop (values.len - 1)),
            mapAssign st.m key ⟨values.arr, i + (values.len - (i + 1)), values.cap⟩⟩
      else
        Remove.loop key value values is st

/-- Method `Remove` on the heap. -/
def Remove [DecidableEq V] (st : State K V) (key : K) (value : V) : State K V :=
  let st1 :=
    match mapIndex2 st.m key with
    | (values, true) => Remove.loop key value values (List.range values.len) st
    | (_, false) => st
  if (mapIndex st1.m key).len = 0 then ⟨st1.heap, mapDelete st1.m key⟩ else st1

/-- Sequential calls `m.Put(key, v)` for each `v` of a sequence of values. -/
def putEach [Inhabited V] (st : State K V) (key : K) (vs : List V) : State K V :=
  vs.foldl (fun acc v => Put acc key v) st

/-- The bucket of `key`: the elements visible through its stored header. -/
def bucket (st : State K V) (key : K) : List V :=
  view st.heap (Get st key).1

/-- Three calls of `Put` on key 1, with the values 10, 20, 30 (`none` is the nil
interface). -/
def afterPut : State Nat (Option Nat) :=
  Put (Put (Put New 1 (some 10)) 1 (some 20)) 1 (some 30)

/-- The slice the caller holds: `vs, _ := m.Get(1)`. -/
def heldSlice : Slice := (Get afterPut 1).1

/-- The state after the following `m.Remove(1, 10)`. -/
def afterRemove : State Nat (Option Nat) :=
  Remove afterPut 1 (some 10)

end Alias

/-! ## Lemmas on the native map -/

theorem mapIndex_eq_fst (l : List (K × List V)) (key : K) :
    mapIndex l key = (mapIndex2 l key).1 := by
  induction l with
  | nil => rfl
  | cons e rest ih =>
    obtain ⟨k, vs⟩ := e
    by_cases h : k = key <;> simp [mapIndex, mapIndex2, h, ih]

theorem mapIndex2_not_found (l : List (K × List V)) (key : K)
    (h : (mapIndex2 l key).2 = false) : mapIndex2 l key = ([], false) := by
  induction l with
  | nil => rfl
  | cons e rest ih =>
    obtain ⟨k, vs⟩ := e
    by_cases hk : k = key
    · simp [mapIndex2, hk] at h
    · simp only [mapIndex2, hk, if_false] at h ⊢
      exact ih h

theorem mapIndex2_mapAssign_self (l : List (K × List V)) (key : K) (x : List V) :
    mapIndex2 (mapAssign l key x) key = (x, true) := by
  induction l with
  | nil => simp [mapAssign, mapIndex2]
  | cons e rest ih =>
    obtain ⟨k, vs⟩ := e
    by_cases h : k = key <;> simp [mapAssign, mapIndex2, h, ih]

theorem mapIndex2_mapAssign_other (l : List (K × List V)) (key key1 : K) (x : List V)
    (h : key1 ≠ key) : mapIndex2 (mapAssign l key x) key1 = mapIndex2 l key1 := by
  induction l with
  | nil => simp [mapAssign, mapIndex2, Ne.symm h]
  | cons e rest ih =>
    obtain ⟨k, vs⟩ := e
    by_cases hk : k = key
    · subst hk
      simp [mapAssign, mapIndex2, Ne.symm h]
    · by_cases hk1 : k = key1
      · subst hk1
        simp [mapAssign, mapIndex2, hk]
      · simp [mapAssign, mapIndex2, hk, hk1, ih]

theorem mapAssign_mapAssign (l : List (K × List V)) (key : K) (x y : List V) :
    mapAssign (mapAssign l key x) key y = mapAssign l key y := by
  induction l with
  | nil => simp [mapAssign]
  | cons e rest ih =>
    obtain ⟨k, vs⟩ := e
    by_cases h : k = key <;> simp [mapAssign, h, ih]

theorem length_mapAssign (l : List (K × List V)) (key : K) (x : List V) :
    (mapAssign l key x).length = l.length + (if (mapIndex2 l key).2 then 0 else 1) := by
  induction l with
  | nil => simp [mapAssign, mapIndex2]
  | cons e rest ih =>
    obtain ⟨k, vs⟩ := e
    by_cases h : k = key
    · simp [mapAssign, mapIndex2, h]
    · simp only [mapAssign, mapIndex2, h, if_false, List.length_cons, ih]
      omega

theorem mapIndex2_mapDelete_self (l : List (K × List V)) (key : K) :
    mapIndex2 (mapDelete l key) key = ([], false) := by
  induction l with
  | nil => rfl
  | cons e rest ih =>
    obtain ⟨k, vs⟩ := e
    by_cases h : k = key <;> simp [mapDelete, mapIndex2, h, ih]

theorem mapIndex2_mapDelete_other (l : List (K × List V)) (key key1 : K)
    (h : key1 ≠ key) : mapIndex2 (mapDelete l key) key1 = mapIndex2 l key1 := by
  induction l with
  | nil => rfl
  | cons e rest ih =>
    obtain ⟨k, vs⟩ := e
    by_cases hk : k = key
    · subst hk
      simp [mapDelete, mapIndex2, Ne.symm h, ih]
    · by_cases hk1 : k = key1
      · subst hk1
        simp [mapDelete, mapIndex2, hk]
      · simp [mapDelete, mapIndex2, hk, hk1, ih]

theorem mapDelete_not_found (l : List (K × List V)) (key : K)
    (h : (mapIndex2 l key).2 = false) : mapDelete l key = l := by
  induction l with
  | nil => rfl
  | cons e rest ih =>
    obtain ⟨k, vs⟩ := e
    by_cases hk : k = key
    · simp [mapIndex2, hk] at h
    · simp only [mapIndex2, hk, if_false] at h
      simp [mapDelete, hk, ih h]

theorem mem_mapAssign (l : List (K × List V)) (key : K) (x : List V) (e : K × List V)
    (h : e ∈ mapAssign l key x) : e ∈ l ∨ e = (key, x) := by
  induction l with
  | nil => simpa [mapAssign] using h
  | cons e1 rest ih =>
    obtain ⟨k, vs⟩ := e1
    by_cases hk : k = key
    · subst hk
      simp only [mapAssign, if_true, List.mem_cons] at h ⊢
      rcases h with h | h
      · exact Or.inr h
      · exact Or.inl (Or.inr h)
    · simp only [mapAssign, hk, if_false, List.mem_cons] at h ⊢
      rcases h with h | h
      · exact Or.inl (Or.inl h)
      · rcases ih h with h1 | h1
        · exact Or.inl (Or.inr h1)
        · exact Or.inr h1

theorem mem_mapDelete (l : List (K × List V)) (key : K) (e : K × List V)
    (h : e ∈ mapDelete l key) : e ∈ l ∧ e.1 ≠ key := by
  induction l with
  | nil => simp [mapDelete] at h
  | cons e1 rest ih =>
    obtain ⟨k, vs⟩ := e1
    by_cases hk : k = key
    · simp only [mapDelete, hk, if_true] at h
      exact ⟨List.mem_cons_of_mem _ (ih h).1, (ih h).2⟩
    · simp only [mapDelete, hk, if_false, List.mem_cons] at h
      rcases h with h | h
      · subst h
        exact ⟨List.mem_cons_self _ _, hk⟩
      · exact ⟨List.mem_cons_of_mem _ (ih h).1, (ih h).2⟩

/-! ## Lemmas on `Size` -/

omit [DecidableEq K] in
theorem foldl_size (l : List (K × List V)) (a : Nat) :
    l.foldl (fun size e => size + e.2.length) a
      = a + (l.map fun e => e.2.length).sum := by
  induction l generalizing a with
  | nil => simp
  | cons e rest ih => simp [ih, Nat.add_assoc]

omit [DecidableEq K] in
theorem Size_eq_sum (m : MultiMap K V) :
    Size m = (m.m.map fun e => e.2.length).sum := by
  simp [Size, foldl_size]

theorem sum_mapAssign (l : List (K × List V)) (key : K) (x : List V) :
    ((mapAssign l key x).map fun e => e.2.length).sum + (mapIndex2 l key).1.length
      = (l.map fun e => e.2.length).sum + x.length := by
  induction l with
  | nil => simp [mapAssign, mapIndex2]
  | cons e rest ih =>
    obtain ⟨k, vs⟩ := e
    by_cases h : k = key
    · simp [mapAssign, mapIndex2, h]
      omega
    · simp only [mapAssign, mapIndex2, h, if_false, List.map_cons, List.sum_cons]
      omega

theorem sum_mapDelete (l : List (K × List V)) (key : K)
    (hl : (l.map Prod.fst).Nodup) :
    ((mapDelete l key).map fun e => e.2.length).sum + (mapIndex2 l key).1.length
      = (l.map fun e => e.2.length).sum := by
  induction l with
  | nil => simp [mapDelete, mapIndex2]
  | cons e rest ih =>
    obtain ⟨k, vs⟩ := e
    simp only [List.map_cons, List.nodup_cons] at hl
    by_cases h : k = key
    · subst h
      have hnf : (mapIndex2 rest k).2 = false := by
        cases hb : (mapIndex2 rest k).2 with
        | false => rfl
        | true =>
          exfalso
          apply hl.1
          clear ih hl
          induction rest with
          | nil => simp [mapIndex2] at hb
          | cons e2 rest2 ih2 =>
            obtain ⟨k2, vs2⟩ := e2
            by_cases hk2 : k2 = k
            · simp [hk2]
            · simp only [mapIndex2, hk2, if_false] at hb
              simp [ih2 hb]
      simp [mapDelete, mapIndex2, mapDelete_not_found rest k hnf]
      omega
    · simp only [mapDelete, mapIndex2, h, if_false, List.map_cons, List.sum_cons]
      have := ih hl.2
      omega

/-! ## Lemmas on `Put` and `PutAll` -/

theorem Put_eq (m : MultiMap K V) (k : K) (v : V) :
    Put m k v = ⟨mapAssign m.m k ((mapIndex2 m.m k).1 ++ [v])⟩ := by
  unfold Put
  cases hb : (mapIndex2 m.m k).2 with
  | false => rw [mapIndex2_not_found m.m k hb]
  | true =>
    have : mapIndex2 m.m k = ((mapIndex2 m.m k).1, true) := by rw [← hb]
    rw [this]

/-! ## Lemmas on indexed stores and the filling loops -/

theorem length_store {α : Type} (out : List α) (count : Nat) (x : α)
    (h : count < out.length) :
    (out.take count ++ x :: out.drop (count + 1)).length = out.length := by
  simp [List.length_take]
  omega

theorem take_store {α : Type} (out : List α) (count : Nat) (x : α)
    (h : count < out.length) :
    (out.take count ++ x :: out.drop (count + 1)).take (count + 1)
      = out.take count ++ [x] := by
  have hl : (out.take count ++ [x]).length = count + 1 := by
    simp [List.length_take]
    omega
  have he : out.take count ++ x :: out.drop (count + 1)
      = (out.take count ++ [x]) ++ out.drop (count + 1) := by simp
  rw [he, List.take_left' hl]

theorem drop_store {α : Type} (out : List α) (count r : Nat) (x : α)
    (h : count < out.length) :
    (out.take count ++ x :: out.drop (count + 1)).drop (count + 1 + r)
      = out.drop (count + 1 + r) := by
  have hl : (out.take count ++ [x]).length = count + 1 := by
    simp [List.length_take]
    omega
  have he : out.take count ++ x :: out.drop (count + 1)
      = (out.take count ++ [x]) ++ out.drop (count + 1) := by simp
  rw [he, ← hl, List.drop_append, List.drop_drop, hl]

theorem sliceStore_eq {α : Type} (out : List α) (count : Nat) (x : α)
    (h : count < out.length) :
    sliceStore out count x = some (out.take count ++ x :: out.drop (count + 1)) := by
  simp [sliceStore, h, List.set_eq_take_append_cons_drop]

omit [DecidableEq K] in
theorem fillBucket_eq {β : Type} (f : K → V → β) (key : K) (vs : List V)
    (out : List (Option β)) (count : Nat) (h : count + vs.length ≤ out.length) :
    fillBucket f key vs (out, count)
      = some (out.take count ++ vs.map (fun v => some (f key v))
          ++ out.drop (count + vs.length), count + vs.length) := by
  induction vs generalizing out count with
  | nil => simp [fillBucket]
  | cons v rest ih =>
    simp only [List.length_cons] at h
    have hc : count < out.length := by omega
    have hlen := length_store out count (some (f key v)) hc
    simp only [fillBucket, sliceStore_eq out count _ hc]
    rw [ih _ (count + 1) (by rw [hlen]; omega), take_store out count _ hc,
      drop_store out count rest.length _ hc]
    simp only [List.map_cons, List.length_cons, List.append_assoc, List.singleton_append,
      Option.some.injEq, Prod.mk.injEq]
    constructor
    · congr 3
      omega
    · omega

omit [DecidableEq K] in
theorem fillAll_eq {β : Type} (f : K → V → β) (l : List (K × List V))
    (out : List (Option β)) (count : Nat)
    (h : count + (l.map fun e => e.2.length).sum ≤ out.length) :
    fillAll f l (out, count)
      = some (out.take count ++ (l.flatMap fun e => e.2.map fun v => some (f e.1 v))
          ++ out.drop (count + (l.map fun e => e.2.length).sum),
          count + (l.map fun e => e.2.length).sum) := by
  induction l generalizing out count with
  | nil => simp [fillAll]
  | cons e rest ih =>
    obtain ⟨k, vs⟩ := e
    simp only [List.map_cons, List.sum_cons] at h
    simp only [fillAll, fillBucket_eq f k vs out count (by omega)]
    have hlen : (out.take count ++ vs.map (fun v => some (f k v))
        ++ out.drop (count + vs.length)).length = out.length := by
      simp [List.length_take]
      omega
    have hpre : (out.take count ++ vs.map (fun v => some (f k v))).length
        = count + vs.length := by
      simp [List.length_take]
      omega
    rw [ih _ (count + vs.length) (by rw [hlen]; omega)]
    rw [List.take_left' hpre]
    have hd : ∀ r, (out.take count ++ vs.map (fun v => some (f k v))
        ++ out.drop (count + vs.length)).drop (count + vs.length + r)
        = out.drop (count + vs.length + r) := by
      intro r
      rw [← hpre, List.drop_append, List.drop_drop, hpre]
    rw [hd]
    simp only [List.flatMap_cons, List.map_cons, List.sum_cons, List.append_assoc,
      Nat.add_assoc]

omit [DecidableEq K] in
theorem fillAll_makeSlice {β : Type} (f : K → V → β) (m : MultiMap K V) :
    (fillAll f m.m (makeSlice β (Size m), 0)).map Prod.fst
      = some (m.m.flatMap fun e => e.2.map fun v => some (f e.1 v)) := by
  rw [fillAll_eq f m.m _ 0 (by simp [makeSlice, Size_eq_sum])]
  simp [makeSlice, Size_eq_sum]

omit [DecidableEq K] in
theorem Keys_eq (m : MultiMap K V) :
    Keys m = some (m.m.flatMap fun e => e.2.map fun _ => some e.1) :=
  fillAll_makeSlice (fun key _ => key) m

omit [DecidableEq K] in
theorem Values_eq (m : MultiMap K V) :
    Values m = some (m.m.flatMap fun e => e.2.map fun v => some v) :=
  fillAll_makeSlice (fun _ value => value) m

omit [DecidableEq K] in
theorem Entries_eq (m : MultiMap K V) :
    Entries m = some (m.m.flatMap fun e => e.2.map fun v => some (e.1, v)) :=
  fillAll_makeSlice (fun key value => (key, value)) m

omit [DecidableEq K] in
theorem length_flatMap_pairs {β : Type} (g : K → V → β) (l : List (K × List V)) :
    (l.flatMap fun e => e.2.map fun v => g e.1 v).length
      = (l.map fun e => e.2.length).sum := by
  induction l with
  | nil => rfl
  | cons e rest ih => simp [List.flatMap_cons, ih]

omit [DecidableEq K] in
theorem KeySet_loop_eq (l : List (K × List V)) (out : List (Option K)) (count : Nat)
    (h : count + l.length ≤ out.length) :
    KeySet.loop l (out, count)
      = some (out.take count ++ l.map (fun e => some e.1)
          ++ out.drop (count + l.length), count + l.length) := by
  induction l generalizing out count with
  | nil => simp [KeySet.loop]
  | cons e rest ih =>
    obtain ⟨k, vs⟩ := e
    simp only [List.length_cons] at h
    have hc : count < out.length := by omega
    have hlen := length_store out count (some k) hc
    simp only [KeySet.loop, sliceStore_eq out count _ hc]
    rw [ih _ (count + 1) (by rw [hlen]; omega), take_store out count _ hc,
      drop_store out count rest.length _ hc]
    simp only [List.map_cons, List.length_cons, List.append_assoc, List.singleton_append,
      Option.some.injEq, Prod.mk.injEq]
    constructor
    · congr 3
      omega
    · omega

omit [DecidableEq K] in
theorem KeySet_eq (m : MultiMap K V) :
    KeySet m = some (m.m.map fun e => some e.1) := by
  unfold KeySet
  rw [KeySet_loop_eq m.m _ 0 (by simp [makeSlice])]
  simp [makeSlice]

/-! ## Lemmas on `Remove` -/

theorem mem_of_mapIndex2 (l : List (K × List V)) (key : K) (vs : List V)
    (h : mapIndex2 l key = (vs, true)) : (key, vs) ∈ l := by
  induction l with
  | nil => simp [mapIndex2] at h
  | cons e rest ih =>
    obtain ⟨k, ws⟩ := e
    by_cases hk : k = key
    · simp only [mapIndex2, hk, if_true, Prod.mk.injEq, and_true] at h
      simp [hk, h]
    · simp only [mapIndex2, hk, if_false] at h
      exact List.mem_cons_of_mem _ (ih h)

theorem Remove_loop_no_match [DecidableEq V] (key : K) (value : V) (n : Nat)
    (is : List Nat) (backing : List V) (mm : List (K × List V))
    (h : ∀ x ∈ backing, x ≠ value) :
    Remove.loop key value n is backing mm = mm := by
  induction is with
  | nil => rfl
  | cons i rest ih =>
    rw [Remove.loop]
    split
    · rfl
    · next v hb =>
      rw [if_neg (h v (List.getElem?_mem hb))]
      exact ih

theorem Remove_loop_shape [DecidableEq V] (key : K) (value : V) (n : Nat)
    (is : List Nat) (backing : List V) (mm : List (K × List V))
    (hlen : backing.length = n) (his : ∀ i ∈ is, i < n) :
    Remove.loop key value n is backing mm = mm ∨
      ∃ s : List V, s.length + 1 = n ∧
        Remove.loop key value n is backing mm = mapAssign mm key s := by
  induction is generalizing backing mm with
  | nil => exact Or.inl rfl
  | cons i rest ih =>
    have hi : i < n := his i (List.mem_cons_self _ _)
    have hrest : ∀ j ∈ rest, j < n := fun j hj => his j (List.mem_cons_of_mem _ hj)
    rw [Remove.loop]
    split
    · exact Or.inl rfl
    · next v hb =>
      by_cases hv : v = value
      · rw [if_pos hv]
        have hs : (backing.take i ++ backing.drop (i + 1)).length + 1 = n := by
          simp [List.length_take]
          omega
        have hb1 : (backing.take i ++ backing.drop (i + 1)
            ++ backing.drop (n - 1)).length = n := by
          simp [List.length_take]
          omega
        rcases ih _ (mapAssign mm key (backing.take i ++ backing.drop (i + 1))) hb1 hrest
          with h1 | ⟨s, hs1, h1⟩
        · exact Or.inr ⟨_, hs, h1⟩
        · refine Or.inr ⟨s, hs1, ?_⟩
          rw [h1, mapAssign_mapAssign]
      · rw [if_neg hv]
        exact ih backing mm hlen hrest

theorem NoEmptyBucket_Put (m : MultiMap K V) (k : K) (v : V) (h : NoEmptyBucket m) :
    NoEmptyBucket (Put m k v) := by
  intro e he
  rw [Put_eq] at he
  rcases mem_mapAssign _ _ _ _ he with h1 | h1
  · exact h e h1
  · simp [h1]

theorem NoEmptyBucket_PutAll (m : MultiMap K V) (k : K) (vs : List V)
    (h : NoEmptyBucket m) : NoEmptyBucket (PutAll m k vs) := by
  induction vs generalizing m with
  | nil => exact h
  | cons v rest ih => exact ih _ (NoEmptyBucket_Put m k v h)

theorem NoEmptyBucket_RemoveAll (m : MultiMap K V) (k : K) (h : NoEmptyBucket m) :
    NoEmptyBucket (RemoveAll m k) :=
  fun e he => h e (mem_mapDelete _ _ _ he).1

theorem NoEmptyBucket_settle (mm l : List (K × List V)) (key : K)
    (h : ∀ e ∈ l, e.2.length ≠ 0)
    (hmm : mm = l ∨ ∃ s : List V, mm = mapAssign l key s) :
    NoEmptyBucket
      (if (mapIndex mm key).length = 0 then (⟨mapDelete mm key⟩ : MultiMap K V)
        else ⟨mm⟩) := by
  rcases hmm with h1 | ⟨s, h1⟩
  · subst h1
    split
    · exact fun e he => h e (mem_mapDelete _ _ _ he).1
    · exact h
  · subst h1
    rw [mapIndex_eq_fst, mapIndex2_mapAssign_self]
    split
    · next hs =>
      intro e he
      have hd := mem_mapDelete _ _ _ he
      rcases mem_mapAssign _ _ _ _ hd.1 with h2 | h2
      · exact h e h2
      · exact absurd (by rw [h2]) hd.2
    · next hs =>
      intro e he
      rcases mem_mapAssign _ _ _ _ he with h2 | h2
      · exact h e h2
      · rw [h2]
        exact hs

theorem NoEmptyBucket_Remove [DecidableEq V] (m : MultiMap K V) (k : K) (v : V)
    (h : NoEmptyBucket m) : NoEmptyBucket (Remove m k v) := by
  unfold Remove
  apply NoEmptyBucket_settle _ m.m k h
  split
  · next values hv =>
    rcases Remove_loop_shape k v values.length (List.range values.length) values m.m rfl
      (fun i hi => List.mem_range.mp hi) with h1 | ⟨s, _, h1⟩
    · exact Or.inl h1
    · exact Or.inr ⟨s, h1⟩
  · exact Or.inl rfl

/-! ## The operations keep the keys of the map distinct -/

theorem not_mem_keys_of_not_found (l : List (K × List V)) (key : K)
    (h : (mapIndex2 l key).2 = false) : key ∉ l.map Prod.fst := by
  induction l with
  | nil => simp
  | cons e rest ih =>
    obtain ⟨k, vs⟩ := e
    by_cases hk : k = key
    · simp [mapIndex2, hk] at h
    · simp only [mapIndex2, hk, if_false] at h
      simp only [List.map_cons, List.mem_cons, not_or]
      exact ⟨fun h1 => hk h1.symm, ih h⟩

theorem keys_mapAssign (l : List (K × List V)) (key : K) (x : List V) :
    (mapAssign l key x).map Prod.fst
      = if (mapIndex2 l key).2 then l.map Prod.fst else l.map Prod.fst ++ [key] := by
  induction l with
  | nil => simp [mapAssign, mapIndex2]
  | cons e rest ih =>
    obtain ⟨k, vs⟩ := e
    by_cases hk : k = key
    · simp [mapAssign, mapIndex2, hk]
    · simp only [mapAssign, mapIndex2, hk, if_false, List.map_cons, ih]
      split <;> simp

theorem nodup_keys_mapAssign (l : List (K × List V)) (key : K) (x : List V)
    (h : (l.map Prod.fst).Nodup) : ((mapAssign l key x).map Prod.fst).Nodup := by
  rw [keys_mapAssign]
  cases hb : (mapIndex2 l key).2 with
  | true => simpa using h
  | false =>
    have hk := not_mem_keys_of_not_found l key hb
    simp only [Bool.false_eq_true, if_false]
    rw [List.nodup_append]
    refine ⟨h, List.nodup_singleton _, ?_⟩
    intro a ha hb1
    rw [List.mem_singleton] at hb1
    exact hk (hb1 ▸ ha)

theorem keys_mapDelete (l : List (K × List V)) (key : K) :
    (mapDelete l key).map Prod.fst = (l.map Prod.fst).filter (fun k => k ≠ key) := by
  induction l with
  | nil => rfl
  | cons e rest ih =>
    obtain ⟨k, vs⟩ := e
    by_cases hk : k = key <;> simp [mapDelete, hk, ih]

theorem nodup_keys_mapDelete (l : List (K × List V)) (key : K)
    (h : (l.map Prod.fst).Nodup) : ((mapDelete l key).map Prod.fst).Nodup := by
  rw [keys_mapDelete]
  exact h.filter _

theorem WF_Put (m : MultiMap K V) (k : K) (v : V) (h : WF m) : WF (Put m k v) := by
  rw [Put_eq]
  exact nodup_keys_mapAssign m.m k _ h

theorem WF_PutAll (m : MultiMap K V) (k : K) (vs : List V) (h : WF m) :
    WF (PutAll m k vs) := by
  induction vs generalizing m with
  | nil => exact h
  | cons v rest ih => exact ih _ (WF_Put m k v h)

theorem WF_RemoveAll (m : MultiMap K V) (k : K) (h : WF m) : WF (RemoveAll m k) :=
  nodup_keys_mapDelete m.m k h

theorem WF_Remove [DecidableEq V] (m : MultiMap K V) (k : K) (v : V) (h : WF m) :
    WF (Remove m k v) := by
  have hmm : ∀ mm : List (K × List V), (mm.map Prod.fst).Nodup →
      WF (if (mapIndex mm k).length = 0 then (⟨mapDelete mm k⟩ : MultiMap K V)
        else ⟨mm⟩) := by
    intro mm hn
    split
    · exact nodup_keys_mapDelete mm k hn
    · exact hn
  unfold Remove
  apply hmm
  split
  · next values hv =>
    rcases Remove_loop_shape k v values.length (List.range values.length) values m.m rfl
      (fun i hi => List.mem_range.mp hi) with h1 | ⟨s, _, h1⟩
    · rw [h1]
      exact h
    · rw [h1]
      exact nodup_keys_mapAssign m.m k s h
  · exact h

theorem Reachable_WF [DecidableEq V] (m : MultiMap K V) (hm : Reachable m) : WF m := by
  induction hm with
  | new => simp [WF, New]
  | put m k v _ ih => exact WF_Put m k v ih
  | putAll m k vs _ ih => exact WF_PutAll m k vs ih
  | remove m k v _ ih => exact WF_Remove m k v ih
  | removeAll m k _ ih => exact WF_RemoveAll m k ih
  | clear m _ _ => simp [WF, Clear]

/-! ## The claims -/

/-- Claim C2, evaluated on the code: on the bucket `[10, 20, 10, 30]`, built by four
calls of `Put`, `Remove(1, 10)` leaves `[20, 30, 30]`.  Both occurrences of `10` are
gone and the last element is doubled, whereas deleting only the first occurrence
would leave `[20, 10, 30]`. -/
theorem Remove_duplicate_shifts_twice :
    Get (Put (Put (Put (Put (New : MultiMap Nat Nat) 1 10) 1 20) 1 10) 1 30) 1
      = ([10, 20, 10, 30], true) ∧
    Get (Remove (Put (Put (Put (Put (New : MultiMap Nat Nat) 1 10) 1 20) 1 10) 1 30) 1 10) 1
      = ([20, 30, 30], true) ∧
    List.erase [10, 20, 10, 30] 10 = [20, 10, 30] := by
  decide

/-- Claim C3, evaluated on the code: the value `10` occurs twice in the bucket
`[10, 20, 10, 30]` of key `1`, and after `Remove(1, 10)` no occurrence remains:
`Contains(1, 10)` is false although the value was duplicated. -/
theorem Remove_duplicate_Contains_false :
    List.count 10 (Get (PutAll (New : MultiMap Nat Nat) 1 [10, 20, 10, 30]) 1).1 = 2 ∧
    Contains (Remove (PutAll (New : MultiMap Nat Nat) 1 [10, 20, 10, 30]) 1 10) 1 10
      = false ∧
    List.count 10 (Get (Remove (PutAll (New : MultiMap Nat Nat) 1 [10, 20, 10, 30]) 1 10) 1).1
      = 0 := by
  decide

/-- Claim C4: every multimap reachable from `New()` by `Put`, `PutAll`, `Remove`,
`RemoveAll` and `Clear` has no empty bucket; and `Remove(k, v)` on a key whose bucket
is exactly `[v]` deletes the key: `ContainsKey(k)` becomes false and `Get(k)` reports
`found = false`. -/
theorem Reachable_NoEmptyBucket [DecidableEq V] :
    (∀ m : MultiMap K V, Reachable m → NoEmptyBucket m) ∧
    (∀ (m : MultiMap K V) (k : K) (v : V), Get m k = ([v], true) →
      ContainsKey (Remove m k v) k = false ∧ Get (Remove m k v) k = ([], false)) := by
  constructor
  · intro m hm
    induction hm with
    | new => intro e he; simp [New] at he
    | put m k v _ ih => exact NoEmptyBucket_Put m k v ih
    | putAll m k vs _ ih => exact NoEmptyBucket_PutAll m k vs ih
    | remove m k v _ ih => exact NoEmptyBucket_Remove m k v ih
    | removeAll m k _ ih => exact NoEmptyBucket_RemoveAll m k ih
    | clear m _ _ => intro e he; simp [Clear] at he
  · intro m k v h
    have hr : Remove m k v = ⟨mapDelete (mapAssign m.m k []) k⟩ := by
      unfold Get at h
      unfold Remove
      rw [h]
      simp [Remove.loop, List.range, List.range.loop, mapIndex_eq_fst,
        mapIndex2_mapAssign_self]
    simp [ContainsKey, Get, hr, mapIndex2_mapDelete_self]

/-- Witness of C4 on a concrete run: two `Put`s and a `Remove` from `New()`. -/
theorem Reachable_NoEmptyBucket_witness :
    NoEmptyBucket (Remove (Put (Put (New : MultiMap Nat Nat) 1 10) 2 20) 1 10) ∧
    ContainsKey (Remove (Put (Put (New : MultiMap Nat Nat) 1 10) 2 20) 1 10) 1 = false ∧
    Get (Remove (Put (Put (New : MultiMap Nat Nat) 1 10) 2 20) 1 10) 1 = ([], false) :=
  ⟨Reachable_NoEmptyBucket.1 _
      (Reachable.remove _ 1 10 (Reachable.put _ 2 20 (Reachable.put _ 1 10 Reachable.new))),
    Reachable_NoEmptyBucket.2 (Put (Put (New : MultiMap Nat Nat) 1 10) 2 20) 1 10
      (by decide)⟩

omit [DecidableEq K] in
/-- Claim C7: in any state, `Entries()`, `Keys()` and `Values()` return (without an
index panic) slices whose lengths are all equal to `Size()`. -/
theorem length_Entries_Keys_Values (m : MultiMap K V) :
    ∃ (es : List (Option (K × V))) (ks : List (Option K)) (vs : List (Option V)),
      Entries m = some es ∧ Keys m = some ks ∧ Values m = some vs ∧
      es.length = Size m ∧ ks.length = Size m ∧ vs.length = Size m := by
  refine ⟨_, _, _, Entries_eq m, Keys_eq m, Values_eq m, ?_, ?_, ?_⟩
  · rw [Size_eq_sum]
    exact length_flatMap_pairs (fun k v => some (k, v)) m.m
  · rw [Size_eq_sum]
    exact length_flatMap_pairs (fun k _ => some k) m.m
  · rw [Size_eq_sum]
    exact length_flatMap_pairs (fun _ v => some v) m.m

/-- Claim C8: after `RemoveAll(k)`, `ContainsKey(k)` is false and `Size()` equals the
previous `Size()` minus the length of the previous bucket of `k` (0 if `k` was
absent); if `k` was absent, `RemoveAll(k)` leaves the multimap unchanged. -/
theorem RemoveAll_ContainsKey_Size (m : MultiMap K V) (k : K) (hm : WF m) :
    ContainsKey (RemoveAll m k) k = false ∧
    Size (RemoveAll m k) = Size m - (Get m k).1.length ∧
    (Get m k).1.length ≤ Size m ∧
    (ContainsKey m k = false → (Get m k).1.length = 0 ∧ RemoveAll m k = m) := by
  have hs := sum_mapDelete m.m k hm
  refine ⟨?_, ?_, ?_, ?_⟩
  · simp [ContainsKey, RemoveAll, mapIndex2_mapDelete_self]
  · rw [Size_eq_sum, Size_eq_sum]
    simp only [RemoveAll, Get]
    omega
  · rw [Size_eq_sum]
    simp only [Get]
    omega
  · intro h
    constructor
    · simp [Get, mapIndex2_not_found m.m k h]
    · simp only [RemoveAll, mapDelete_not_found m.m k h]

/-- Witness of C8: a present key with a bucket of two values, and an absent key. -/
theorem RemoveAll_ContainsKey_Size_witness :
    WF (⟨[(1, [10, 20]), (2, [5])]⟩ : MultiMap Nat Nat) ∧
    Size (RemoveAll (⟨[(1, [10, 20]), (2, [5])]⟩ : MultiMap Nat Nat) 1) = 3 - 2 ∧
    RemoveAll (⟨[(1, [10, 20]), (2, [5])]⟩ : MultiMap Nat Nat) 7
      = ⟨[(1, [10, 20]), (2, [5])]⟩ :=
  ⟨by decide,
    (RemoveAll_ContainsKey_Size (⟨[(1, [10, 20]), (2, [5])]⟩ : MultiMap Nat Nat) 1
      (by decide)).2.1,
    ((RemoveAll_ContainsKey_Size (⟨[(1, [10, 20]), (2, [5])]⟩ : MultiMap Nat Nat) 7
      (by decide)).2.2.2 (by decide)).2⟩

/-- Claim C9: after `Clear()`, `Empty()` is true, `Size()` is 0, `KeySet()` is empty,
and `Get(k)` reports `found = false` for every key `k`. -/
theorem Clear_Empty_Size_KeySet_Get (m : MultiMap K V) :
    Empty (Clear m) = true ∧
    Size (Clear m) = 0 ∧
    KeySet (Clear m) = some [] ∧
    ∀ k : K, Get (Clear m) k = ([], false) := by
  refine ⟨rfl, rfl, rfl, fun _ => rfl⟩

/-- Claim C10: on a multimap without empty buckets, if `k` is absent, or `k` is present
but no element of its bucket equals `v`, then `Remove(k, v)` is a no-op: the state is
unchanged, so the bucket of every key (including `k`) and `Size()` are unchanged. -/
theorem Remove_noop [DecidableEq V] (m : MultiMap K V) (k : K) (v : V)
    (hinv : NoEmptyBucket m)
    (h : ContainsKey m k = false ∨
      (ContainsKey m k = true ∧ ∀ x ∈ (Get m k).1, x ≠ v)) :
    Remove m k v = m ∧
    (∀ k1 : K, Get (Remove m k v) k1 = Get m k1) ∧
    Size (Remove m k v) = Size m := by
  have hr : Remove m k v = m := by
    unfold Remove
    rcases h with h | ⟨h, hx⟩
    · have h2 := mapIndex2_not_found m.m k h
      rw [h2]
      simp only [mapIndex_eq_fst, h2, List.length_nil, if_true]
      rw [mapDelete_not_found m.m k h]
    · have h2 : mapIndex2 m.m k = ((mapIndex2 m.m k).1, true) := by
        unfold ContainsKey at h
        rw [← h]
      rw [h2]
      simp only
      have hx1 : ∀ x ∈ (mapIndex2 m.m k).1, x ≠ v := hx
      rw [Remove_loop_no_match k v _ _ _ m.m hx1]
      have hne := hinv _ (mem_of_mapIndex2 m.m k _ h2)
      rw [mapIndex_eq_fst, if_neg hne]
  rw [hr]
  exact ⟨rfl, fun _ => rfl, rfl⟩

/-- Witness of C10: an absent key, and a present key whose bucket lacks the value. -/
theorem Remove_noop_witness :
    Remove (⟨[(1, [10, 20]), (2, [5])]⟩ : MultiMap Nat Nat) 7 10
      = ⟨[(1, [10, 20]), (2, [5])]⟩ ∧
    Remove (⟨[(1, [10, 20]), (2, [5])]⟩ : MultiMap Nat Nat) 1 5
      = ⟨[(1, [10, 20]), (2, [5])]⟩ :=
  ⟨(Remove_noop (⟨[(1, [10, 20]), (2, [5])]⟩ : MultiMap Nat Nat) 7 10 (by decide)
      (Or.inl (by decide))).1,
    (Remove_noop (⟨[(1, [10, 20]), (2, [5])]⟩ : MultiMap Nat Nat) 1 5 (by decide)
      (Or.inr ⟨by decide, by decide⟩)).1⟩

/-! ## Lemmas on the membership queries -/

theorem Contains_loop_eq [DecidableEq V] (value : V) (found : Bool) (vs : List V) :
    Contains.loop value found vs = (decide (value ∈ vs) && found) := by
  induction vs with
  | nil => simp [Contains.loop]
  | cons x rest ih =>
    by_cases h : x = value
    · simp [Contains.loop, h]
    · have h1 : ¬ value = x := fun h2 => h h2.symm
      simp [Contains.loop, h, h1, ih]

theorem Contains_iff [DecidableEq V] (m : MultiMap K V) (k : K) (v : V) :
    Contains m k v = true ↔ (ContainsKey m k = true ∧ v ∈ (Get m k).1) := by
  simp only [Contains, ContainsKey, Get, Contains_loop_eq, Bool.and_eq_true,
    decide_eq_true_eq]
  exact And.comm

theorem ContainsValue_inner_eq [DecidableEq V] (value : V) (vs : List V) :
    ContainsValue.inner value vs = decide (value ∈ vs) := by
  induction vs with
  | nil => simp [ContainsValue.inner]
  | cons x rest ih =>
    by_cases h : x = value
    · simp [ContainsValue.inner, h]
    · have h1 : ¬ value = x := fun h2 => h h2.symm
      simp [ContainsValue.inner, h, h1, ih]

omit [DecidableEq K] in
theorem ContainsValue_outer_iff [DecidableEq V] (value : V) (l : List (K × List V)) :
    ContainsValue.outer value l = true ↔ ∃ e ∈ l, value ∈ e.2 := by
  induction l with
  | nil => simp [ContainsValue.outer]
  | cons e rest ih =>
    obtain ⟨k, vs⟩ := e
    by_cases h : value ∈ vs
    · simp [ContainsValue.outer, ContainsValue_inner_eq, h]
    · simp [ContainsValue.outer, ContainsValue_inner_eq, h, ih]

theorem mapIndex2_of_mem (l : List (K × List V)) (key : K) (vs : List V)
    (hl : (l.map Prod.fst).Nodup) (h : (key, vs) ∈ l) :
    mapIndex2 l key = (vs, true) := by
  induction l with
  | nil => simp at h
  | cons e rest ih =>
    obtain ⟨k, ws⟩ := e
    simp only [List.map_cons, List.nodup_cons] at hl
    rcases List.mem_cons.mp h with h1 | h1
    · simp only [Prod.mk.injEq] at h1
      simp [mapIndex2, h1.1, h1.2]
    · have hk : k ≠ key := by
        intro hk
        apply hl.1
        rw [hk]
        exact List.mem_map.mpr ⟨(key, vs), h1, rfl⟩
      simp only [mapIndex2, hk, if_false]
      exact ih hl.2 h1

theorem mapIndex2_found_eq (l : List (K × List V)) (key : K)
    (h : (mapIndex2 l key).2 = true) :
    mapIndex2 l key = ((mapIndex2 l key).1, true) := by
  rw [← h]

theorem Remove_m_cases [DecidableEq V] (m : MultiMap K V) (k : K) (v : V) :
    ∃ mm : List (K × List V),
      (mm = m.m ∨ ∃ s : List V,
        s.length + 1 = (mapIndex2 m.m k).1.length ∧ (mapIndex2 m.m k).2 = true ∧
        mm = mapAssign m.m k s) ∧
      Remove m k v
        = (if (mapIndex mm k).length = 0 then (⟨mapDelete mm k⟩ : MultiMap K V)
            else ⟨mm⟩) := by
  cases hb : (mapIndex2 m.m k).2 with
  | false =>
    refine ⟨m.m, Or.inl rfl, ?_⟩
    unfold Remove
    rw [mapIndex2_not_found m.m k hb]
  | true =>
    have h2 := mapIndex2_found_eq m.m k hb
    rcases Remove_loop_shape k v (mapIndex2 m.m k).1.length
      (List.range (mapIndex2 m.m k).1.length) (mapIndex2 m.m k).1 m.m rfl
      (fun i hi => List.mem_range.mp hi) with h1 | ⟨s, hs, h1⟩
    · refine ⟨m.m, Or.inl rfl, ?_⟩
      unfold Remove
      rw [h2]
      simp only
      rw [h1]
    · refine ⟨mapAssign m.m k s, Or.inr ⟨s, hs, rfl, rfl⟩, ?_⟩
      unfold Remove
      rw [h2]
      simp only
      rw [h1]

theorem Get_Put_other (m : MultiMap K V) (k k1 : K) (v : V) (h : k1 ≠ k) :
    Get (Put m k v) k1 = Get m k1 := by
  simp only [Get, Put_eq]
  exact mapIndex2_mapAssign_other m.m k k1 _ h

theorem Get_PutAll_other (m : MultiMap K V) (k k1 : K) (vs : List V) (h : k1 ≠ k) :
    Get (PutAll m k vs) k1 = Get m k1 := by
  induction vs generalizing m with
  | nil => rfl
  | cons v rest ih =>
    simp only [PutAll]
    rw [ih, Get_Put_other m k k1 v h]

theorem Get_Remove_other [DecidableEq V] (m : MultiMap K V) (k k1 : K) (v : V)
    (h : k1 ≠ k) : Get (Remove m k v) k1 = Get m k1 := by
  obtain ⟨mm, hmm, hr⟩ := Remove_m_cases m k v
  have h1 : mapIndex2 mm k1 = mapIndex2 m.m k1 := by
    rcases hmm with h2 | ⟨s, _, _, h2⟩
    · rw [h2]
    · rw [h2]
      exact mapIndex2_mapAssign_other m.m k k1 s h
  rw [hr]
  split
  · simp only [Get]
    rw [mapIndex2_mapDelete_other mm k k1 h, h1]
  · simp only [Get]
    exact h1

/-! ## The claims on the queries and on the frame of the mutators -/

/-- Claim C11: `Contains(k, v)` is true if and only if `k` is present in the mapping and
some element of the bucket of `k` equals `v`; the result is a boolean, so several
occurrences still give just true, and an absent key gives false. -/
theorem Contains_true_iff [DecidableEq V] (m : MultiMap K V) (k : K) (v : V) :
    (Contains m k v = true ↔ (ContainsKey m k = true ∧ ∃ x ∈ (Get m k).1, x = v)) ∧
    Contains m k v = (ContainsKey m k && decide (v ∈ (Get m k).1)) := by
  constructor
  · rw [Contains_iff]
    simp
  · simp only [Contains, ContainsKey, Get, Contains_loop_eq]
    exact Bool.and_comm _ _

/-- Claim C13: the found flag returned by `Get(k)` equals `ContainsKey(k)`; when `k` is
not found, `Get` returns the empty sequence together with false (a value, not an
error); on `New()` this is the result for every key. -/
theorem Get_found_eq_ContainsKey (m : MultiMap K V) (k : K) :
    (Get m k).2 = ContainsKey m k ∧
    (ContainsKey m k = false → Get m k = ([], false)) ∧
    (∀ k1 : K, Get (New : MultiMap K V) k1 = ([], false)) :=
  ⟨rfl, fun h => mapIndex2_not_found m.m k h, fun _ => rfl⟩

/-- Witness of C13: key `7` is absent from a map with keys `1` and `2`. -/
theorem Get_found_eq_ContainsKey_witness :
    ContainsKey (⟨[(1, [10, 20]), (2, [5])]⟩ : MultiMap Nat Nat) 7 = false ∧
    Get (⟨[(1, [10, 20]), (2, [5])]⟩ : MultiMap Nat Nat) 7 = ([], false) :=
  ⟨by decide,
    (Get_found_eq_ContainsKey (⟨[(1, [10, 20]), (2, [5])]⟩ : MultiMap Nat Nat) 7).2.1
      (by decide)⟩

/-- Claim C20: for keys `k1 ≠ k`, each of `Put(k, v)`, `PutAll(k, vs)`, `Remove(k, v)`
and `RemoveAll(k)` leaves the result of `Get(k1)` (bucket and found flag) unchanged. -/
theorem Get_other_key_unchanged [DecidableEq V] (m : MultiMap K V) (k k1 : K) (v : V)
    (vs : List V) (h : k1 ≠ k) :
    Get (Put m k v) k1 = Get m k1 ∧
    Get (PutAll m k vs) k1 = Get m k1 ∧
    Get (Remove m k v) k1 = Get m k1 ∧
    Get (RemoveAll m k) k1 = Get m k1 :=
  ⟨Get_Put_other m k k1 v h, Get_PutAll_other m k k1 vs h, Get_Remove_other m k k1 v h,
    mapIndex2_mapDelete_other m.m k k1 h⟩

/-- Witness of C20: operations on key `1` seen from key `2`. -/
theorem Get_other_key_unchanged_witness :
    Get (Put (⟨[(1, [10, 20]), (2, [5])]⟩ : MultiMap Nat Nat) 1 10) 2 = ([5], true) ∧
    Get (PutAll (⟨[(1, [10, 20]), (2, [5])]⟩ : MultiMap Nat Nat) 1 [30, 40]) 2
      = ([5], true) ∧
    Get (Remove (⟨[(1, [10, 20]), (2, [5])]⟩ : MultiMap Nat Nat) 1 10) 2 = ([5], true) ∧
    Get (RemoveAll (⟨[(1, [10, 20]), (2, [5])]⟩ : MultiMap Nat Nat) 1) 2 = ([5], true) :=
  Get_other_key_unchanged (⟨[(1, [10, 20]), (2, [5])]⟩ : MultiMap Nat Nat) 1 2 10
    [30, 40] (by decide)

/-! ## Lemmas on the number of occurrences in the flattened views -/

omit [DecidableEq K] in
theorem count_flatMap_pairs {β : Type} [BEq β] (g : K → V → β) (b : β)
    (l : List (K × List V)) :
    (l.flatMap fun e => e.2.map fun v => g e.1 v).count b
      = (l.map fun e => (e.2.map fun v => g e.1 v).count b).sum := by
  induction l with
  | nil => rfl
  | cons e rest ih => simp [List.flatMap_cons, List.count_append, ih]

theorem sum_only_key (l : List (K × List V)) (k : K) (F : K → List V → Nat)
    (hl : (l.map Prod.fst).Nodup) (hF : ∀ k1 vs, k1 ≠ k → F k1 vs = 0)
    (hnil : F k [] = 0) :
    (l.map fun e => F e.1 e.2).sum = F k (mapIndex2 l k).1 := by
  induction l with
  | nil => simp [mapIndex2, hnil]
  | cons e rest ih =>
    obtain ⟨k1, vs⟩ := e
    simp only [List.map_cons, List.nodup_cons] at hl
    by_cases hk : k1 = k
    · subst hk
      have hz : (rest.map fun e => F e.1 e.2).sum = 0 := by
        apply List.sum_eq_zero
        intro x hx
        obtain ⟨e, he, rfl⟩ := List.mem_map.mp hx
        apply hF
        intro h1
        apply hl.1
        rw [← h1]
        exact List.mem_map.mpr ⟨e, he, rfl⟩
      simp [mapIndex2, hz]
    · simp only [List.map_cons, List.sum_cons, mapIndex2, hk, if_false,
        hF k1 vs hk, Nat.zero_add]
      exact ih hl.2

theorem count_key_bucket (k k1 : K) (vs : List V) :
    (vs.map fun _ => some k1).count (some k) = if k1 = k then vs.length else 0 := by
  have hr : (vs.map fun _ => some k1) = List.replicate vs.length (some k1) := by simp
  rw [hr, List.count_replicate]
  by_cases h : k1 = k <;> simp [h]

theorem count_pair_bucket [DecidableEq V] (k k1 : K) (v : V) (vs : List V) :
    (vs.map fun x => some (k1, x)).count (some (k, v))
      = if k1 = k then vs.count v else 0 := by
  induction vs with
  | nil => simp
  | cons x rest ih =>
    by_cases h : k1 = k
    · simp only [h, if_true] at ih ⊢
      simp only [List.map_cons, List.count_cons, ih]
      by_cases hx : x = v <;> simp [hx]
    · simp only [h, if_false] at ih ⊢
      simp [List.count_cons, h, ih]

omit [DecidableEq K] in
theorem count_value_bucket [DecidableEq V] (v : V) (vs : List V) :
    (vs.map fun x => some x).count (some v) = vs.count v := by
  induction vs with
  | nil => simp
  | cons x rest ih =>
    simp only [List.map_cons, List.count_cons, ih]
    by_cases hx : x = v <;> simp [hx]

theorem ContainsKey_iff_mem_keys (m : MultiMap K V) (k : K) :
    ContainsKey m k = true ↔ k ∈ m.m.map Prod.fst := by
  constructor
  · intro h
    exact List.mem_map.mpr ⟨(k, (mapIndex2 m.m k).1),
      mem_of_mapIndex2 m.m k _ (mapIndex2_found_eq m.m k h), rfl⟩
  · intro h
    cases hb : ContainsKey m k with
    | true => rfl
    | false => exact absurd h (not_mem_keys_of_not_found m.m k hb)

/-! ## The claims on the flattened views -/

/-- Claim C14: on a map with distinct keys, the number of times `k` appears in `Keys()`
equals the length of the bucket of `k` (0 if `k` is absent, whose bucket is the empty
sequence): each key is repeated once per value stored under it. -/
theorem Keys_count_eq_bucket_length (m : MultiMap K V) (k : K) (hm : WF m) :
    ∃ ks : List (Option K),
      Keys m = some ks ∧ ks.count (some k) = (Get m k).1.length ∧
      (ContainsKey m k = false → ks.count (some k) = 0) := by
  have hc : (m.m.flatMap fun e => e.2.map fun _ => some e.1).count (some k)
      = (Get m k).1.length := by
    have h1 := count_flatMap_pairs (fun (k1 : K) (_ : V) => some k1) (some k) m.m
    have h2 := sum_only_key m.m k (fun k1 vs => (vs.map fun _ => some k1).count (some k))
      hm (fun k1 vs hk => (count_key_bucket k k1 vs).trans (if_neg hk)) (by simp)
    simp only at h1 h2
    rw [h1, h2, count_key_bucket]
    simp [Get]
  refine ⟨_, Keys_eq m, hc, ?_⟩
  intro h
  rw [hc, Get, mapIndex2_not_found m.m k h]
  rfl

/-- Witness of C14: key `1` has two values and appears twice in `Keys()`; the absent
key `7` does not appear. -/
theorem Keys_count_eq_bucket_length_witness :
    WF (⟨[(1, [10, 20]), (2, [5])]⟩ : MultiMap Nat Nat) ∧
    (∃ ks : List (Option Nat),
      Keys (⟨[(1, [10, 20]), (2, [5])]⟩ : MultiMap Nat Nat) = some ks ∧
      ks.count (some 1)
        = (Get (⟨[(1, [10, 20]), (2, [5])]⟩ : MultiMap Nat Nat) 1).1.length) ∧
    ∃ ks : List (Option Nat),
      Keys (⟨[(1, [10, 20]), (2, [5])]⟩ : MultiMap Nat Nat) = some ks ∧
      ks.count (some 7) = 0 :=
  ⟨by decide,
    (Keys_count_eq_bucket_length (⟨[(1, [10, 20]), (2, [5])]⟩ : MultiMap Nat Nat) 1
      (by decide)).imp fun _ h => ⟨h.1, h.2.1⟩,
    (Keys_count_eq_bucket_length (⟨[(1, [10, 20]), (2, [5])]⟩ : MultiMap Nat Nat) 7
      (by decide)).imp fun _ h => ⟨h.1, h.2.2 (by decide)⟩⟩

/-- Claim C15: on a map with distinct keys, `KeySet()` contains no duplicates and no
unfilled slot, and a key `k` is an element of `KeySet()` if and only if
`ContainsKey(k)` is true. -/
theorem KeySet_nodup_mem_iff (m : MultiMap K V) (hm : WF m) :
    ∃ ks : List (Option K),
      KeySet m = some ks ∧ ks.Nodup ∧ none ∉ ks ∧
      ∀ k : K, some k ∈ ks ↔ ContainsKey m k = true := by
  refine ⟨_, KeySet_eq m, ?_, ?_, ?_⟩
  · have h1 : (m.m.map fun e => some e.1) = (m.m.map Prod.fst).map some := by
      simp [List.map_map]
    rw [h1]
    exact List.Nodup.map (Option.some_injective K) hm
  · simp
  · intro k
    rw [ContainsKey_iff_mem_keys]
    simp

/-- Witness of C15: the key set of a map with the keys `1` and `2`. -/
theorem KeySet_nodup_mem_iff_witness :
    WF (⟨[(1, [10, 20]), (2, [5])]⟩ : MultiMap Nat Nat) ∧
    ∃ ks : List (Option Nat),
      KeySet (⟨[(1, [10, 20]), (2, [5])]⟩ : MultiMap Nat Nat) = some ks ∧ ks.Nodup ∧
      none ∉ ks ∧
      ∀ k : Nat, some k ∈ ks ↔
        ContainsKey (⟨[(1, [10, 20]), (2, [5])]⟩ : MultiMap Nat Nat) k = true :=
  ⟨by decide,
    KeySet_nodup_mem_iff (⟨[(1, [10, 20]), (2, [5])]⟩ : MultiMap Nat Nat) (by decide)⟩

/-- Claim C16: on a map with distinct keys, the number of times the pair `(k, v)`
appears in `Entries()` equals the number of occurrences of `v` in the bucket of `k`
(0 if `k` is absent), so `(k, v)` is in `Entries()` if and only if `Contains(k, v)`;
and the number of times `v` appears in `Values()` is the sum over all keys of its
occurrences in their buckets. -/
theorem Entries_Values_count [DecidableEq V] (m : MultiMap K V) (k : K) (v : V)
    (hm : WF m) :
    ∃ (es : List (Option (K × V))) (vals : List (Option V)),
      Entries m = some es ∧ Values m = some vals ∧
      es.count (some (k, v)) = (Get m k).1.count v ∧
      (ContainsKey m k = false → es.count (some (k, v)) = 0) ∧
      (some (k, v) ∈ es ↔ Contains m k v = true) ∧
      vals.count (some v)
        = ((m.m.map Prod.fst).map fun k1 => (Get m k1).1.count v).sum := by
  have hc : (m.m.flatMap fun e => e.2.map fun x => some (e.1, x)).count (some (k, v))
      = (Get m k).1.count v := by
    have h1 := count_flatMap_pairs (fun (k1 : K) (x : V) => some (k1, x)) (some (k, v)) m.m
    have h2 := sum_only_key m.m k
      (fun k1 vs => (vs.map fun x => some (k1, x)).count (some (k, v)))
      hm (fun k1 vs hk => (count_pair_bucket k k1 v vs).trans (if_neg hk)) (by simp)
    simp only at h1 h2
    rw [h1, h2, count_pair_bucket]
    simp [Get]
  refine ⟨_, _, Entries_eq m, Values_eq m, hc, ?_, ?_, ?_⟩
  · intro h
    rw [hc, Get, mapIndex2_not_found m.m k h]
    rfl
  · rw [← List.count_pos_iff, hc, List.count_pos_iff, Contains_iff]
    constructor
    · intro h
      refine ⟨?_, h⟩
      cases hb : ContainsKey m k with
      | true => rfl
      | false =>
        rw [Get, mapIndex2_not_found m.m k hb] at h
        simp at h
    · exact fun h => h.2
  · have h1 := count_flatMap_pairs (fun (_ : K) (x : V) => some x) (some v) m.m
    simp only at h1
    rw [h1, List.map_map]
    apply congrArg
    apply List.map_congr_left
    intro e he
    simp only [Function.comp, Get, count_value_bucket]
    rw [mapIndex2_of_mem m.m e.1 e.2 hm he]

/-- Witness of C16: the value `10` occurs twice under key `1` and once under key `2`;
no pair of the absent key `7` is in `Entries()`. -/
theorem Entries_Values_count_witness :
    WF (⟨[(1, [10, 20, 10]), (2, [10])]⟩ : MultiMap Nat Nat) ∧
    (∃ (es : List (Option (Nat × Nat))) (vals : List (Option Nat)),
      Entries (⟨[(1, [10, 20, 10]), (2, [10])]⟩ : MultiMap Nat Nat) = some es ∧
      Values (⟨[(1, [10, 20, 10]), (2, [10])]⟩ : MultiMap Nat Nat) = some vals ∧
      es.count (some (1, 10)) = 2 ∧
      (some (1, 10) ∈ es ↔
        Contains (⟨[(1, [10, 20, 10]), (2, [10])]⟩ : MultiMap Nat Nat) 1 10 = true) ∧
      vals.count (some 10) = 3) ∧
    ∃ es : List (Option (Nat × Nat)),
      Entries (⟨[(1, [10, 20, 10]), (2, [10])]⟩ : MultiMap Nat Nat) = some es ∧
      es.count (some (7, 10)) = 0 :=
  ⟨by decide,
    (Entries_Values_count (⟨[(1, [10, 20, 10]), (2, [10])]⟩ : MultiMap Nat Nat) 1 10
      (by decide)).imp fun _ h => h.imp fun _ h1 =>
        ⟨h1.1, h1.2.1, h1.2.2.1, h1.2.2.2.2.1, h1.2.2.2.2.2⟩,
    (Entries_Values_count (⟨[(1, [10, 20, 10]), (2, [10])]⟩ : MultiMap Nat Nat) 7 10
      (by decide)).imp fun _ h => h.elim fun _ h1 => ⟨h1.1, h1.2.2.2.1 (by decide)⟩⟩

/-! ## The scenario of the example program -/

/-- Claim C17: the run of `main`.  After the five `Put`s, `Size()` is 5, `KeySet()`
holds exactly the keys 1, 2, 3, 4, `Get(1)` is `["x", "a"]` with found true, and
`Contains(2, "b")`, `ContainsKey(4)`, `ContainsValue("c")` are true.  After
`Remove(4, "d")` and `RemoveAll(1)`, `Size()` is 2, exactly the pairs `(3, "c")` and
`(2, "b")` remain and `ContainsKey(4)` is false.  After `Clear()`, `Empty()` is true. -/
theorem main_scenario :
    Size mainAfterPut = 5 ∧
    (∃ ks : List (Option Nat), KeySet mainAfterPut = some ks ∧
      ks.Perm [some 1, some 2, some 3, some 4]) ∧
    Get mainAfterPut 1 = (["x", "a"], true) ∧
    Contains mainAfterPut 2 "b" = true ∧
    ContainsKey mainAfterPut 4 = true ∧
    ContainsValue mainAfterPut "c" = true ∧
    Size mainAfterRemove = 2 ∧
    (∃ es : List (Option (Nat × String)), Entries mainAfterRemove = some es ∧
      es.Perm [some (3, "c"), some (2, "b")]) ∧
    ContainsKey mainAfterRemove 4 = false ∧
    Empty mainAfterClear = true := by
  refine ⟨by decide, ⟨_, rfl, by decide⟩, by decide, by decide, by decide, by decide,
    by decide, ⟨_, rfl, by decide⟩, by decide, by decide⟩

/-! ## Lemmas on the loop of `Remove`, index by index -/

theorem Remove_loop_skip [DecidableEq V] (key : K) (value : V) (n : Nat)
    (is1 is2 : List Nat) (backing : List V) (mm : List (K × List V))
    (h : ∀ j ∈ is1, ∃ x, backing[j]? = some x ∧ x ≠ value) :
    Remove.loop key value n (is1 ++ is2) backing mm
      = Remove.loop key value n is2 backing mm := by
  induction is1 with
  | nil => rfl
  | cons j rest ih =>
    obtain ⟨x, hx, hne⟩ := h j (List.mem_cons_self _ _)
    rw [List.cons_append, Remove.loop, hx]
    simp only [if_neg hne]
    exact ih fun j1 hj1 => h j1 (List.mem_cons_of_mem _ hj1)

theorem Remove_loop_no_match_at [DecidableEq V] (key : K) (value : V) (n : Nat)
    (is : List Nat) (backing : List V) (mm : List (K × List V))
    (h : ∀ j ∈ is, backing[j]? ≠ some value) :
    Remove.loop key value n is backing mm = mm := by
  induction is with
  | nil => rfl
  | cons j rest ih =>
    rw [Remove.loop]
    split
    · rfl
    · next x hx =>
      have hne : x ≠ value := fun e => h j (List.mem_cons_self _ _) (e ▸ hx)
      rw [if_neg hne]
      exact ih fun j1 hj1 => h j1 (List.mem_cons_of_mem _ hj1)

theorem Remove_loop_hit [DecidableEq V] (key : K) (value : V) (n : Nat)
    (is : List Nat) (backing : List V) (mm : List (K × List V))
    (hlen : backing.length = n) (his : ∀ i ∈ is, i < n)
    (hex : ∃ i ∈ is, backing[i]? = some value) :
    ∃ s : List V, s.length + 1 = n ∧
      Remove.loop key value n is backing mm = mapAssign mm key s := by
  induction is with
  | nil =>
    obtain ⟨i, hi, _⟩ := hex
    simp at hi
  | cons j rest ih =>
    have hj : j < n := his j (List.mem_cons_self _ _)
    have hrest : ∀ i ∈ rest, i < n := fun i hi => his i (List.mem_cons_of_mem _ hi)
    have hx : backing[j]? = some backing[j] := List.getElem?_eq_getElem (by omega)
    rw [Remove.loop, hx]
    by_cases hv : backing[j] = value
    · simp only [if_pos hv]
      have hs : (backing.take j ++ backing.drop (j + 1)).length + 1 = n := by
        simp [List.length_take]
        omega
      have hb1 : (backing.take j ++ backing.drop (j + 1)
          ++ backing.drop (n - 1)).length = n := by
        simp [List.length_take]
        omega
      rcases Remove_loop_shape key value n rest _
          (mapAssign mm key (backing.take j ++ backing.drop (j + 1))) hb1 hrest
        with h1 | ⟨s, hs1, h1⟩
      · exact ⟨_, hs, h1⟩
      · exact ⟨s, hs1, by rw [h1, mapAssign_mapAssign]⟩
    · simp only [if_neg hv]
      apply ih hrest
      obtain ⟨i, hi, hiv⟩ := hex
      rcases List.mem_cons.mp hi with h1 | h1
      · subst h1
        rw [hx] at hiv
        exact absurd (Option.some.inj hiv) hv
      · exact ⟨i, h1, hiv⟩

omit [DecidableEq K] in
theorem shifted_no_match (pre post : List V) (value : V) (hpost : value ∉ post)
    (j : Nat) (hj : pre.length < j) (hj2 : j < pre.length + 1 + post.length) :
    (pre ++ post
      ++ (pre ++ value :: post).drop (pre.length + 1 + post.length - 1))[j]?
      ≠ some value := by
  intro h
  rw [List.append_assoc, List.getElem?_append_right (by omega)] at h
  have hx := List.getElem?_mem h
  rcases List.mem_append.mp hx with h1 | h1
  · exact hpost h1
  · have hd : pre.length + 1 + post.length - 1 = pre.length + post.length := by omega
    rw [hd, List.drop_append] at h1
    cases post with
    | nil => simp at hj2; omega
    | cons y ys =>
      simp only [List.length_cons, List.drop_succ_cons] at h1
      exact hpost (List.mem_of_mem_drop h1)

theorem Remove_loop_single [DecidableEq V] (key : K) (value : V) (pre post : List V)
    (mm : List (K × List V)) (hpre : value ∉ pre) (hpost : value ∉ post) :
    Remove.loop key value (pre ++ value :: post).length
        (List.range (pre ++ value :: post).length) (pre ++ value :: post) mm
      = mapAssign mm key (pre ++ post) := by
  have hn : (pre ++ value :: post).length = pre.length + 1 + post.length := by
    simp
    omega
  have hr : List.range (pre.length + 1 + post.length)
      = List.range' 0 pre.length ++ (pre.length :: List.range' (pre.length + 1) post.length) := by
    have h1 := List.range'_append_1 0 pre.length (post.length + 1)
    rw [Nat.zero_add] at h1
    rw [List.range_eq_range', ← List.range'_succ, h1]
    congr 1
    omega
  rw [hn, hr, Remove_loop_skip]
  · have hx : (pre ++ value :: post)[pre.length]? = some value := by
      rw [List.getElem?_append_right (Nat.le_refl _)]
      simp
    rw [Remove.loop, hx]
    simp only [if_true]
    have ht : (pre ++ value :: post).take pre.length = pre := List.take_left _ _
    have hd : (pre ++ value :: post).drop (pre.length + 1) = post := by
      rw [List.drop_append]
      rfl
    rw [ht, hd]
    apply Remove_loop_no_match_at
    intro j hj
    rw [List.mem_range'_1] at hj
    exact shifted_no_match pre post value hpost j (by omega) (by omega)
  · intro j hj
    rw [List.mem_range'_1] at hj
    have hjl : j < pre.length := by omega
    refine ⟨pre[j], ?_, ?_⟩
    · rw [List.getElem?_append_left hjl]
      exact List.getElem?_eq_getElem hjl
    · intro e
      exact hpre (e ▸ List.getElem_mem hjl)

omit [DecidableEq K] in
theorem split_single [DecidableEq V] (b : List V) (i : Nat) (v : V)
    (hi : b[i]? = some v) (hone : b.count v = 1) :
    ∃ pre post : List V, b = pre ++ v :: post ∧ pre.length = i ∧ v ∉ pre ∧ v ∉ post ∧
      b.eraseIdx i = pre ++ post := by
  obtain ⟨hlt, hv⟩ := List.getElem?_eq_some_iff.mp hi
  have hb : b = b.take i ++ v :: b.drop (i + 1) := by
    rw [← hv, List.getElem_cons_drop b i hlt, List.take_append_drop]
  have hc : (b.take i).count v + (1 + (b.drop (i + 1)).count v) = 1 := by
    rw [hb] at hone
    simpa [List.count_append, List.count_cons, Nat.add_comm] using hone
  refine ⟨b.take i, b.drop (i + 1), hb, ?_, ?_, ?_, List.eraseIdx_eq_take_drop_succ b i⟩
  · simp [List.length_take]
    omega
  · exact List.count_eq_zero.mp (by omega)
  · exact List.count_eq_zero.mp (by omega)

/-! ## Lemmas on the result of `Remove` -/

theorem Remove_hit_eq [DecidableEq V] (m : MultiMap K V) (k : K) (v : V)
    (h : Contains m k v = true) :
    ∃ s : List V, s.length + 1 = (Get m k).1.length ∧
      Remove m k v
        = (if s.length = 0 then (⟨mapDelete (mapAssign m.m k s) k⟩ : MultiMap K V)
            else ⟨mapAssign m.m k s⟩) := by
  obtain ⟨hk, hv⟩ := (Contains_iff m k v).mp h
  have h2 := mapIndex2_found_eq m.m k hk
  obtain ⟨i, hlt, hiv⟩ := List.getElem_of_mem hv
  obtain ⟨s, hs, hloop⟩ := Remove_loop_hit k v (mapIndex2 m.m k).1.length
    (List.range (mapIndex2 m.m k).1.length) (mapIndex2 m.m k).1 m.m rfl
    (fun j hj => List.mem_range.mp hj)
    ⟨i, List.mem_range.mpr hlt, (List.getElem?_eq_getElem hlt).trans (congrArg some hiv)⟩
  refine ⟨s, hs, ?_⟩
  unfold Remove
  rw [h2]
  simp only
  rw [hloop, mapIndex_eq_fst, mapIndex2_mapAssign_self]

theorem Size_Remove_hit [DecidableEq V] (m : MultiMap K V) (k : K) (v : V) (hm : WF m)
    (h : Contains m k v = true) : Size (Remove m k v) + 1 = Size m := by
  obtain ⟨s, hs, hr⟩ := Remove_hit_eq m k v h
  have h1 := sum_mapAssign m.m k s
  have h2 := sum_mapDelete (mapAssign m.m k s) k (nodup_keys_mapAssign m.m k s hm)
  rw [mapIndex2_mapAssign_self] at h2
  simp only [Get] at hs
  rw [hr]
  split
  · next h0 =>
    rw [Size_eq_sum, Size_eq_sum]
    simp only at h2 ⊢
    omega
  · rw [Size_eq_sum, Size_eq_sum]
    simp only
    omega

theorem Size_Remove_miss [DecidableEq V] (m : MultiMap K V) (k : K) (v : V) (hm : WF m)
    (h : Contains m k v = false) : Size (Remove m k v) = Size m := by
  have hmm : Remove m k v
      = (if (mapIndex m.m k).length = 0 then (⟨mapDelete m.m k⟩ : MultiMap K V)
          else ⟨m.m⟩) := by
    unfold Remove
    cases hb : (mapIndex2 m.m k).2 with
    | false => rw [mapIndex2_not_found m.m k hb]
    | true =>
      rw [mapIndex2_found_eq m.m k hb]
      simp only
      rw [Remove_loop_no_match]
      intro x hx hxv
      have hc : Contains m k v = true :=
        (Contains_iff m k v).mpr ⟨hb, hxv ▸ hx⟩
      rw [h] at hc
      exact Bool.false_ne_true hc
  have h2 := sum_mapDelete m.m k hm
  rw [hmm]
  split
  · next h0 =>
    rw [mapIndex_eq_fst] at h0
    rw [Size_eq_sum, Size_eq_sum]
    simp only
    omega
  · rfl

theorem Remove_single_eq [DecidableEq V] (m : MultiMap K V) (k : K) (v : V)
    (pre post : List V) (h2 : mapIndex2 m.m k = (pre ++ v :: post, true))
    (hpre : v ∉ pre) (hpost : v ∉ post) :
    Remove m k v
      = (if (pre ++ post).length = 0
          then (⟨mapDelete (mapAssign m.m k (pre ++ post)) k⟩ : MultiMap K V)
          else ⟨mapAssign m.m k (pre ++ post)⟩) := by
  unfold Remove
  rw [h2]
  simp only
  rw [Remove_loop_single k v pre post m.m hpre hpost, mapIndex_eq_fst,
    mapIndex2_mapAssign_self]

/-! ## The claims on `Remove` -/

/-- Claim C18: on a map with distinct keys (with or without empty buckets),
`Remove(k, v)` decreases `Size()` by exactly 1 when `Contains(k, v)` was true before
the call, however many times `v` occurs in the bucket of `k`, and leaves `Size()`
unchanged when `Contains(k, v)` was false. -/
theorem Remove_Size [DecidableEq V] (m : MultiMap K V) (k : K) (v : V) (hm : WF m) :
    (Contains m k v = true → Size (Remove m k v) + 1 = Size m) ∧
    (Contains m k v = false → Size (Remove m k v) = Size m) :=
  ⟨Size_Remove_hit m k v hm, Size_Remove_miss m k v hm⟩

/-- Witness of C18: the value `10` occurs twice under key `1`, and `99` not at all. -/
theorem Remove_Size_witness :
    WF (⟨[(1, [10, 20, 10, 30]), (2, [5])]⟩ : MultiMap Nat Nat) ∧
    Size (Remove (⟨[(1, [10, 20, 10, 30]), (2, [5])]⟩ : MultiMap Nat Nat) 1 10) + 1
      = Size (⟨[(1, [10, 20, 10, 30]), (2, [5])]⟩ : MultiMap Nat Nat) ∧
    Size (Remove (⟨[(1, [10, 20, 10, 30]), (2, [5])]⟩ : MultiMap Nat Nat) 1 99)
      = Size (⟨[(1, [10, 20, 10, 30]), (2, [5])]⟩ : MultiMap Nat Nat) :=
  ⟨by decide,
    (Remove_Size (⟨[(1, [10, 20, 10, 30]), (2, [5])]⟩ : MultiMap Nat Nat) 1 10
      (by decide)).1 (by decide),
    (Remove_Size (⟨[(1, [10, 20, 10, 30]), (2, [5])]⟩ : MultiMap Nat Nat) 1 99
      (by decide)).2 (by decide)⟩

/-- Claim C19: when `v` occurs exactly once in the bucket of `k`, at index `i`, the loop
of `Remove(k, v)` stores the old bucket with the element at index `i` deleted and all
other elements in their order; the shifted backing array holds no `v` at any later
index, so the rest of the loop finds no further match; afterwards `Get(k)` returns that
bucket, or, when it is empty, `k` is deleted from the mapping. -/
theorem Remove_single_occurrence [DecidableEq V] (m : MultiMap K V) (k : K) (v : V)
    (i : Nat) (hi : (Get m k).1[i]? = some v) (hone : (Get m k).1.count v = 1) :
    Remove.loop k v (Get m k).1.length (List.range (Get m k).1.length) (Get m k).1 m.m
      = mapAssign m.m k ((Get m k).1.eraseIdx i) ∧
    (∀ j : Nat, i < j → j < (Get m k).1.length →
      ((Get m k).1.eraseIdx i ++ (Get m k).1.drop ((Get m k).1.length - 1))[j]?
        ≠ some v) ∧
    ((Get m k).1.eraseIdx i ≠ [] →
      Get (Remove m k v) k = ((Get m k).1.eraseIdx i, true)) ∧
    ((Get m k).1.eraseIdx i = [] →
      Get (Remove m k v) k = ([], false) ∧ ContainsKey (Remove m k v) k = false) := by
  obtain ⟨pre, post, hb, hlen, hpre, hpost, he⟩ := split_single (Get m k).1 i v hi hone
  have hk : (mapIndex2 m.m k).2 = true := by
    cases hf : (mapIndex2 m.m k).2 with
    | true => rfl
    | false =>
      rw [Get, mapIndex2_not_found m.m k hf] at hb
      simp at hb
  have h2 : mapIndex2 m.m k = (pre ++ v :: post, true) := by
    rw [mapIndex2_found_eq m.m k hk]
    exact congrArg (fun b => (b, true)) hb
  have hn : (pre ++ v :: post).length = pre.length + 1 + post.length := by
    simp
    omega
  have hr := Remove_single_eq m k v pre post h2 hpre hpost
  rw [he, hb]
  refine ⟨Remove_loop_single k v pre post m.m hpre hpost, ?_, ?_, ?_⟩
  · intro j h1 h3
    rw [hn] at h3 ⊢
    exact shifted_no_match pre post v hpost j (by omega) h3
  · intro hne
    have hl : (pre ++ post).length ≠ 0 := fun h0 => hne (List.length_eq_zero.mp h0)
    rw [hr, if_neg hl]
    exact mapIndex2_mapAssign_self m.m k _
  · intro h0
    rw [hr, h0]
    simp only [List.length_nil, if_true]
    exact ⟨mapIndex2_mapDelete_self _ k,
      congrArg Prod.snd (mapIndex2_mapDelete_self (mapAssign m.m k ([] : List V)) k)⟩

/-- Witness of C19: `20` occurs once, at index 1, in a bucket that holds `10` twice. -/
theorem Remove_single_occurrence_witness :
    Get (Remove (⟨[(1, [10, 20, 10, 30]), (2, [5])]⟩ : MultiMap Nat Nat) 1 20) 1
      = ([10, 10, 30], true) ∧
    Get (Remove (⟨[(1, [10, 20, 10, 30]), (2, [5])]⟩ : MultiMap Nat Nat) 2 5) 2
      = ([], false) :=
  ⟨(Remove_single_occurrence (⟨[(1, [10, 20, 10, 30]), (2, [5])]⟩ : MultiMap Nat Nat)
      1 20 1 (by decide) (by decide)).2.2.1 (by decide),
    ((Remove_single_occurrence (⟨[(1, [10, 20, 10, 30]), (2, [5])]⟩ : MultiMap Nat Nat)
      2 5 0 (by decide) (by decide)).2.2.2 (by decide)).1⟩

/-! ## Lemmas on the map under Go's `==`

The first lemmas show that, where `==` is the equality, the operations of `Iface` are
those of the base model. -/

namespace Iface

variable {K V : Type}

theorem mapIndex2_lawful [DecidableEq K] (l : List (K × List V)) (key : K) :
    @Iface.mapIndex2 K V (lawfulGoEq K) l key = MultiMap.mapIndex2 l key := by
  induction l with
  | nil => rfl
  | cons e rest ih =>
    obtain ⟨k, vs⟩ := e
    by_cases h : k = key <;>
      simp [Iface.mapIndex2, MultiMap.mapIndex2, lawfulGoEq, h, ih]

theorem mapAssign_lawful [DecidableEq K] (l : List (K × List V)) (key : K)
    (x : List V) :
    @Iface.mapAssign K V (lawfulGoEq K) l key x = MultiMap.mapAssign l key x := by
  induction l with
  | nil => rfl
  | cons e rest ih =>
    obtain ⟨k, vs⟩ := e
    by_cases h : k = key <;>
      simp [Iface.mapAssign, MultiMap.mapAssign, lawfulGoEq, h, ih]

theorem Get_lawful [DecidableEq K] (m : MultiMap K V) (key : K) :
    @Iface.Get K V (lawfulGoEq K) m key = MultiMap.Get m key :=
  mapIndex2_lawful m.m key

theorem Put_lawful [DecidableEq K] (m : MultiMap K V) (key : K) (value : V) :
    @Iface.Put K V (lawfulGoEq K) m key value = MultiMap.Put m key value := by
  unfold Iface.Put MultiMap.Put
  rw [mapIndex2_lawful]
  simp only [mapAssign_lawful]

theorem ContainsKey_lawful [DecidableEq K] (m : MultiMap K V) (key : K) :
    @Iface.ContainsKey K V (lawfulGoEq K) m key = MultiMap.ContainsKey m key :=
  congrArg Prod.snd (mapIndex2_lawful m.m key)

theorem Contains_loop_lawful [DecidableEq V] (value : V) (found : Bool) (vs : List V) :
    @Iface.Contains.loop V (lawfulGoEq V) value found vs
      = MultiMap.Contains.loop value found vs := by
  induction vs with
  | nil => rfl
  | cons x rest ih =>
    by_cases h : x = value <;>
      simp [Iface.Contains.loop, MultiMap.Contains.loop, lawfulGoEq, h, ih]

theorem Contains_lawful [DecidableEq K] [DecidableEq V] (m : MultiMap K V) (key : K)
    (value : V) :
    @Iface.Contains K V (lawfulGoEq K) (lawfulGoEq V) m key value
      = MultiMap.Contains m key value := by
  unfold Iface.Contains MultiMap.Contains
  rw [mapIndex2_lawful]
  exact Contains_loop_lawful value _ _

theorem ContainsValue_lawful [DecidableEq V] (m : MultiMap K V) (value : V) :
    @Iface.ContainsValue K V (lawfulGoEq V) m value = MultiMap.ContainsValue m value := by
  have hin : ∀ vs : List V, @Iface.ContainsValue.inner V (lawfulGoEq V) value vs
      = MultiMap.ContainsValue.inner value vs := by
    intro vs
    induction vs with
    | nil => rfl
    | cons x rest ih =>
      by_cases h : x = value <;>
        simp [Iface.ContainsValue.inner, MultiMap.ContainsValue.inner, lawfulGoEq, h, ih]
  unfold Iface.ContainsValue MultiMap.ContainsValue
  induction m.m with
  | nil => rfl
  | cons e rest ih =>
    obtain ⟨k, vs⟩ := e
    simp only [Iface.ContainsValue.outer, MultiMap.ContainsValue.outer, hin, ih]

theorem mapIndex2_not_found_goEq [GoEq K] (l : List (K × List V)) (key : K)
    (h : (mapIndex2 l key).2 = false) : mapIndex2 l key = ([], false) := by
  induction l with
  | nil => rfl
  | cons e rest ih =>
    obtain ⟨k, vs⟩ := e
    by_cases hk : GoEq.eq k key = true
    · simp [mapIndex2, hk] at h
    · simp only [mapIndex2, hk, if_false, Bool.false_eq_true] at h ⊢
      exact ih h

theorem mapIndex2_found_goEq [GoEq K] (l : List (K × List V)) (key : K)
    (h : (mapIndex2 l key).2 = true) :
    mapIndex2 l key = ((mapIndex2 l key).1, true) := by
  rw [← h]

theorem mapIndex2_mapAssign_self_goEq [GoEq K] (l : List (K × List V)) (key : K)
    (x : List V) (hk : GoEq.eq key key = true) :
    mapIndex2 (mapAssign l key x) key = (x, true) := by
  induction l with
  | nil => simp [mapAssign, mapIndex2, hk]
  | cons e rest ih =>
    obtain ⟨k, vs⟩ := e
    by_cases h : GoEq.eq k key = true
    · simp [mapAssign, mapIndex2, h, hk]
    · simp [mapAssign, mapIndex2, h, ih]

theorem length_mapAssign_goEq [GoEq K] (l : List (K × List V)) (key : K) (x : List V) :
    (mapAssign l key x).length = l.length + (if (mapIndex2 l key).2 then 0 else 1) := by
  induction l with
  | nil => simp [mapAssign, mapIndex2]
  | cons e rest ih =>
    obtain ⟨k, vs⟩ := e
    by_cases h : GoEq.eq k key = true
    · simp [mapAssign, mapIndex2, h]
    · simp only [mapAssign, mapIndex2, h, if_false, Bool.false_eq_true,
        List.length_cons, ih]
      omega

theorem sum_mapAssign_goEq [GoEq K] (l : List (K × List V)) (key : K) (x : List V) :
    ((mapAssign l key x).map fun e => e.2.length).sum + (mapIndex2 l key).1.length
      = (l.map fun e => e.2.length).sum + x.length := by
  induction l with
  | nil => simp [mapAssign, mapIndex2]
  | cons e rest ih =>
    obtain ⟨k, vs⟩ := e
    by_cases h : GoEq.eq k key = true
    · simp [mapAssign, mapIndex2, h]
      omega
    · simp only [mapAssign, mapIndex2, h, if_false, Bool.false_eq_true,
        List.map_cons, List.sum_cons]
      omega

theorem Put_eq_goEq [GoEq K] (m : MultiMap K V) (k : K) (v : V) :
    Put m k v = ⟨mapAssign m.m k ((mapIndex2 m.m k).1 ++ [v])⟩ := by
  unfold Put
  cases hb : (mapIndex2 m.m k).2 with
  | false => rw [mapIndex2_not_found_goEq m.m k hb]
  | true => rw [mapIndex2_found_goEq m.m k hb]

theorem Size_Put_goEq [GoEq K] (m : MultiMap K V) (k : K) (v : V) :
    Size (Put m k v) = Size m + 1 := by
  have h := sum_mapAssign_goEq m.m k ((mapIndex2 m.m k).1 ++ [v])
  rw [Size_eq_sum, Size_eq_sum, Put_eq_goEq]
  simp only [List.length_append, List.length_singleton] at h ⊢
  omega

theorem Size_putEach_goEq [GoEq K] (m : MultiMap K V) (k : K) (vs : List V) :
    Size (putEach m k vs) = Size m + vs.length := by
  induction vs generalizing m with
  | nil => rfl
  | cons v rest ih =>
    have h := ih (Put m k v)
    simp only [putEach, List.foldl_cons, List.length_cons] at h ⊢
    rw [h, Size_Put_goEq]
    omega

theorem ContainsKey_Put_goEq [GoEq K] (m : MultiMap K V) (k : K) (v : V)
    (hk : GoEq.eq k k = true) : ContainsKey (Put m k v) k = true := by
  simp [ContainsKey, Put_eq_goEq, mapIndex2_mapAssign_self_goEq _ _ _ hk]

theorem length_Put_goEq [GoEq K] (m : MultiMap K V) (k : K) (v : V) :
    (Put m k v).m.length = m.m.length + (if ContainsKey m k then 0 else 1) := by
  simp [Put_eq_goEq, length_mapAssign_goEq, ContainsKey]

theorem length_putEach_goEq [GoEq K] (m : MultiMap K V) (k : K) (vs : List V)
    (hk : GoEq.eq k k = true) :
    (putEach m k vs).m.length
      = m.m.length + (if ContainsKey m k = false ∧ 1 ≤ vs.length then 1 else 0) := by
  induction vs generalizing m with
  | nil => simp [putEach]
  | cons v rest ih =>
    have h := ih (Put m k v)
    simp only [putEach, List.foldl_cons] at h ⊢
    rw [h, length_Put_goEq, ContainsKey_Put_goEq m k v hk]
    cases hb : ContainsKey m k <;> simp

theorem Contains_loop_eq_goEq [GoEq V] (value : V) (found : Bool) (vs : List V) :
    Contains.loop value found vs = (vs.any (fun x => GoEq.eq x value) && found) := by
  induction vs with
  | nil => simp [Contains.loop]
  | cons x rest ih =>
    by_cases h : GoEq.eq x value = true
    · simp [Contains.loop, h]
    · simp [Contains.loop, h, ih]

theorem Contains_iff_goEq [GoEq K] [GoEq V] (m : MultiMap K V) (k : K) (v : V) :
    Contains m k v = true ↔
      (ContainsKey m k = true ∧ ∃ x ∈ (Get m k).1, GoEq.eq x v = true) := by
  simp only [Contains, ContainsKey, Get, Contains_loop_eq_goEq, Bool.and_eq_true,
    List.any_eq_true]
  exact And.comm

theorem ContainsValue_inner_eq_goEq [GoEq V] (value : V) (vs : List V) :
    ContainsValue.inner value vs = vs.any (fun x => GoEq.eq x value) := by
  induction vs with
  | nil => simp [ContainsValue.inner]
  | cons x rest ih =>
    by_cases h : GoEq.eq x value = true
    · simp [ContainsValue.inner, h]
    · simp [ContainsValue.inner, h, ih]

theorem ContainsValue_outer_iff_goEq [GoEq V] (value : V) (l : List (K × List V)) :
    ContainsValue.outer value l = true ↔
      ∃ e ∈ l, ∃ x ∈ e.2, GoEq.eq x value = true := by
  induction l with
  | nil => simp [ContainsValue.outer]
  | cons e rest ih =>
    obtain ⟨k, vs⟩ := e
    by_cases h : vs.any (fun x => GoEq.eq x value) = true
    · have h1 := List.any_eq_true.mp h
      simp only [ContainsValue.outer, ContainsValue_inner_eq_goEq, h, if_true,
        List.mem_cons, true_iff]
      exact ⟨(k, vs), Or.inl rfl, h1⟩
    · simp only [ContainsValue.outer, ContainsValue_inner_eq_goEq, h, if_false,
        Bool.false_eq_true, ih, List.mem_cons]
      constructor
      · rintro ⟨e, he, hx⟩
        exact ⟨e, Or.inr he, hx⟩
      · rintro ⟨e, he | he, hx⟩
        · subst he
          exact absurd (List.any_eq_true.mpr hx) h
        · exact ⟨e, he, hx⟩

theorem mem_of_mapIndex2_goEq [GoEq K] (l : List (K × List V)) (key : K) (vs : List V)
    (h : mapIndex2 l key = (vs, true)) :
    ∃ k1 : K, (k1, vs) ∈ l ∧ GoEq.eq k1 key = true := by
  induction l with
  | nil => simp [mapIndex2] at h
  | cons e rest ih =>
    obtain ⟨k, ws⟩ := e
    by_cases hk : GoEq.eq k key = true
    · simp only [mapIndex2, hk, if_true, Prod.mk.injEq, and_true] at h
      exact ⟨k, by simp [h], hk⟩
    · simp only [mapIndex2, hk, if_false, Bool.false_eq_true] at h
      obtain ⟨k1, h1, h2⟩ := ih h
      exact ⟨k1, List.mem_cons_of_mem _ h1, h2⟩

theorem mapIndex2_of_mem_goEq [GoEq K] (l : List (K × List V)) (key : K) (vs : List V)
    (hl : (l.map Prod.fst).Pairwise (fun a b => GoEq.eq a b = false))
    (hk : GoEq.eq key key = true) (h : (key, vs) ∈ l) :
    mapIndex2 l key = (vs, true) := by
  induction l with
  | nil => simp at h
  | cons e rest ih =>
    obtain ⟨k, ws⟩ := e
    simp only [List.map_cons, List.pairwise_cons] at hl
    rcases List.mem_cons.mp h with h1 | h1
    · simp only [Prod.mk.injEq] at h1
      simp [mapIndex2, ← h1.1, ← h1.2, hk]
    · have hne : GoEq.eq k key = false :=
        hl.1 key (List.mem_map.mpr ⟨(key, vs), h1, rfl⟩)
      simp only [mapIndex2, hne, if_false, Bool.false_eq_true]
      exact ih hl.2 h1

theorem mem_mapAssign_goEq [GoEq K] (l : List (K × List V)) (key : K) (x : List V)
    (e : K × List V) (h : e ∈ mapAssign l key x) : e ∈ l ∨ e = (key, x) := by
  induction l with
  | nil => simpa [mapAssign] using h
  | cons e1 rest ih =>
    obtain ⟨k, vs⟩ := e1
    by_cases hk : GoEq.eq k key = true
    · simp only [mapAssign, hk, if_true, List.mem_cons] at h ⊢
      rcases h with h | h
      · exact Or.inr h
      · exact Or.inl (Or.inr h)
    · simp only [mapAssign, hk, if_false, Bool.false_eq_true, List.mem_cons] at h ⊢
      rcases h with h | h
      · exact Or.inl (Or.inl h)
      · rcases ih h with h1 | h1
        · exact Or.inl (Or.inr h1)
        · exact Or.inr h1

theorem pairwise_keys_mapAssign_goEq [GoEq K] (l : List (K × List V)) (key : K)
    (x : List V)
    (htrans : ∀ a b c : K, GoEq.eq a b = true → GoEq.eq b c = true → GoEq.eq a c = true)
    (hl : (l.map Prod.fst).Pairwise (fun a b => GoEq.eq a b = false)) :
    ((mapAssign l key x).map Prod.fst).Pairwise (fun a b => GoEq.eq a b = false) := by
  induction l with
  | nil => simp [mapAssign]
  | cons e rest ih =>
    obtain ⟨k, vs⟩ := e
    simp only [List.map_cons, List.pairwise_cons] at hl
    by_cases hk : GoEq.eq k key = true
    · simp only [mapAssign, hk, if_true, List.map_cons, List.pairwise_cons]
      refine ⟨?_, hl.2⟩
      intro b hb
      cases hkb : GoEq.eq key b with
      | false => rfl
      | true =>
        have h1 := htrans k key b hk hkb
        rw [hl.1 b hb] at h1
        exact absurd h1 Bool.false_ne_true
    · simp only [mapAssign, hk, if_false, Bool.false_eq_true, List.map_cons,
        List.pairwise_cons]
      refine ⟨?_, ih hl.2⟩
      intro b hb
      obtain ⟨e, he, rfl⟩ := List.mem_map.mp hb
      rcases mem_mapAssign_goEq rest key x e he with h1 | h1
      · exact hl.1 e.1 (List.mem_map.mpr ⟨e, h1, rfl⟩)
      · rw [h1]
        simpa using hk

theorem DistinctKeys_Put [GoEq K] (m : MultiMap K V) (k : K) (v : V)
    (htrans : ∀ a b c : K, GoEq.eq a b = true → GoEq.eq b c = true → GoEq.eq a c = true)
    (h : DistinctKeys m) : DistinctKeys (Put m k v) := by
  rw [Put_eq_goEq]
  exact pairwise_keys_mapAssign_goEq m.m k _ htrans h

theorem KeysReflexive_Put [GoEq K] (m : MultiMap K V) (k : K) (v : V)
    (hk : GoEq.eq k k = true) (h : KeysReflexive m) : KeysReflexive (Put m k v) := by
  intro e he
  rw [Put_eq_goEq] at he
  rcases mem_mapAssign_goEq _ _ _ _ he with h1 | h1
  · exact h e h1
  · rw [h1]
    exact hk

/-! ## The claims that depend on the reflexivity of `==` -/

/-- Claim C1, for keys and values on which `==` is reflexive: for a key with `k == k`, after `Put(k, v)`, `Get(k)` returns
`found = true` and the bucket that `k` had before (empty if `k` was absent) with `v`
appended at the end, and `ContainsKey(k)` is true; if also `v == v`,
`Contains(k, v)` is true. -/
theorem Put_then_Get_Contains_of_refl [GoEq K] [GoEq V] (m : MultiMap K V) (k : K)
    (v : V) (hk : GoEq.eq k k = true) :
    Get (Put m k v) k = ((Get m k).1 ++ [v], true) ∧
    (ContainsKey m k = false → Get (Put m k v) k = ([v], true)) ∧
    ContainsKey (Put m k v) k = true ∧
    (GoEq.eq v v = true → Contains (Put m k v) k v = true) := by
  have hg : Get (Put m k v) k = ((Get m k).1 ++ [v], true) := by
    simp [Get, Put_eq_goEq, mapIndex2_mapAssign_self_goEq _ _ _ hk]
  refine ⟨hg, ?_, ContainsKey_Put_goEq m k v hk, ?_⟩
  · intro h
    rw [hg]
    simp [Get, mapIndex2_not_found_goEq m.m k h]
  · intro hv
    rw [Contains_iff_goEq]
    refine ⟨ContainsKey_Put_goEq m k v hk, v, ?_, hv⟩
    rw [hg]
    simp

/-- Witness of C1: a `Put` on a present integer key and on an absent integer key. -/
theorem Put_then_Get_Contains_of_refl_witness :
    Get (Put (⟨[(GoVal.int 1, [GoVal.int 10, GoVal.nan])]⟩ : MultiMap GoVal GoVal)
        (GoVal.int 1) (GoVal.int 30)) (GoVal.int 1)
      = ([GoVal.int 10, GoVal.nan] ++ [GoVal.int 30], true) ∧
    Get (Put (⟨[(GoVal.int 1, [GoVal.int 10, GoVal.nan])]⟩ : MultiMap GoVal GoVal)
        (GoVal.int 7) (GoVal.int 30)) (GoVal.int 7)
      = ([GoVal.int 30], true) ∧
    Contains (Put (⟨[(GoVal.int 1, [GoVal.int 10, GoVal.nan])]⟩ : MultiMap GoVal GoVal)
        (GoVal.int 1) (GoVal.int 30)) (GoVal.int 1) (GoVal.int 30) = true :=
  ⟨(Put_then_Get_Contains_of_refl
      (⟨[(GoVal.int 1, [GoVal.int 10, GoVal.nan])]⟩ : MultiMap GoVal GoVal)
      (GoVal.int 1) (GoVal.int 30) (by decide)).1,
    (Put_then_Get_Contains_of_refl
      (⟨[(GoVal.int 1, [GoVal.int 10, GoVal.nan])]⟩ : MultiMap GoVal GoVal)
      (GoVal.int 7) (GoVal.int 30) (by decide)).2.1 (by decide),
    (Put_then_Get_Contains_of_refl
      (⟨[(GoVal.int 1, [GoVal.int 10, GoVal.nan])]⟩ : MultiMap GoVal GoVal)
      (GoVal.int 1) (GoVal.int 30) (by decide)).2.2.2 (by decide)⟩

/-- Counterexample to C1 as stated: after `Put(NaN, 1)` on `New()`, `Get(NaN)` returns
the nil slice with `found = false` and `ContainsKey(NaN)` is false; after
`Put(1, NaN)`, `Contains(1, NaN)` is false. -/
theorem Put_NaN_not_found :
    Get (Put (New : MultiMap GoVal GoVal) GoVal.nan (GoVal.int 1)) GoVal.nan
      = ([], false) ∧
    ContainsKey (Put (New : MultiMap GoVal GoVal) GoVal.nan (GoVal.int 1)) GoVal.nan
      = false ∧
    Contains (Put (New : MultiMap GoVal GoVal) (GoVal.int 1) GoVal.nan)
      (GoVal.int 1) GoVal.nan = false := by
  decide

/-- Claim C5, with the bound on `KeySet()` for keys on which `==` is reflexive: after `N` calls `Put(k, v_i)`, `Size()` has increased by
exactly `N`; and for a key with `k == k` the length of `KeySet()` has increased by 1
if `k` was absent and `N ≥ 1`, and by 0 otherwise (so by 0 if `k` was present, and
never by more than 1). -/
theorem Put_repeated_Size_KeySet_of_refl [GoEq K] (m : MultiMap K V) (k : K)
    (vs : List V) :
    Size (putEach m k vs) = Size m + vs.length ∧
    (GoEq.eq k k = true →
      ∃ ks ks1 : List (Option K),
        KeySet m = some ks ∧ KeySet (putEach m k vs) = some ks1 ∧
        ks1.length
          = ks.length + (if ContainsKey m k = false ∧ 1 ≤ vs.length then 1 else 0) ∧
        ks.length ≤ ks1.length ∧ ks1.length ≤ ks.length + 1) := by
  refine ⟨Size_putEach_goEq m k vs, ?_⟩
  intro hk
  have hl := length_putEach_goEq m k vs hk
  refine ⟨_, _, KeySet_eq m, KeySet_eq _, ?_, ?_, ?_⟩
  · simp only [List.length_map]
    exact hl
  · simp only [List.length_map]
    omega
  · simp only [List.length_map]
    split at hl <;> omega

/-- Witness of C5: two `Put`s on the absent key `7` add one key. -/
theorem Put_repeated_Size_KeySet_of_refl_witness :
    ∃ ks ks1 : List (Option GoVal),
      KeySet (⟨[(GoVal.int 1, [GoVal.int 10])]⟩ : MultiMap GoVal GoVal) = some ks ∧
      KeySet (putEach (⟨[(GoVal.int 1, [GoVal.int 10])]⟩ : MultiMap GoVal GoVal)
        (GoVal.int 7) [GoVal.int 1, GoVal.int 2]) = some ks1 ∧
      ks1.length = ks.length + 1 :=
  ((Put_repeated_Size_KeySet_of_refl
      (⟨[(GoVal.int 1, [GoVal.int 10])]⟩ : MultiMap GoVal GoVal)
      (GoVal.int 7) [GoVal.int 1, GoVal.int 2]).2 (by decide)).imp
    fun _ h => h.imp fun _ h1 => ⟨h1.1, h1.2.1, h1.2.2.1⟩

/-- Counterexample to C5 as stated: two calls `Put(NaN, _)` on `New()` raise the length
of `KeySet()` from 0 to 2. -/
theorem Put_NaN_twice_two_keys :
    KeySet (New : MultiMap GoVal GoVal) = some [] ∧
    KeySet (putEach (New : MultiMap GoVal GoVal) GoVal.nan [GoVal.int 1, GoVal.int 2])
      = some [some GoVal.nan, some GoVal.nan] := by
  decide

/-- Claim C12, with the link to `Contains` for maps without a NaN key:
`ContainsValue(v)` is true if and only if the bucket of some
stored key holds an element equal to `v`, whatever the order in which the entries are
visited; and on a map with distinct keys each of which satisfies `k == k`, this is so
if and only if `Contains(k, v)` holds for some `k`. -/
theorem ContainsValue_true_iff_of_refl [GoEq K] [GoEq V] (m : MultiMap K V) (v : V) :
    (ContainsValue m v = true ↔ ∃ e ∈ m.m, ∃ x ∈ e.2, GoEq.eq x v = true) ∧
    (DistinctKeys m → KeysReflexive m →
      (ContainsValue m v = true ↔ ∃ k : K, Contains m k v = true)) ∧
    (∀ m1 : MultiMap K V, m1.m.Perm m.m → ContainsValue m1 v = ContainsValue m v) := by
  have h1 : ContainsValue m v = true ↔ ∃ e ∈ m.m, ∃ x ∈ e.2, GoEq.eq x v = true :=
    ContainsValue_outer_iff_goEq v m.m
  refine ⟨h1, ?_, ?_⟩
  · intro hd hr
    rw [h1]
    constructor
    · rintro ⟨⟨k, vs⟩, he, hx⟩
      have h2 := mapIndex2_of_mem_goEq m.m k vs hd (hr _ he) he
      refine ⟨k, (Contains_iff_goEq m k v).mpr ⟨?_, ?_⟩⟩
      · simp [ContainsKey, h2]
      · simpa [Get, h2] using hx
    · rintro ⟨k, hk⟩
      obtain ⟨hf, hx⟩ := (Contains_iff_goEq m k v).mp hk
      obtain ⟨k1, hmem, _⟩ := mem_of_mapIndex2_goEq m.m k _ (mapIndex2_found_goEq m.m k hf)
      exact ⟨_, hmem, hx⟩
  · intro m1 hp
    rw [Bool.eq_iff_iff]
    unfold ContainsValue
    rw [ContainsValue_outer_iff_goEq, ContainsValue_outer_iff_goEq]
    exact ⟨fun ⟨e, he, hv⟩ => ⟨e, hp.mem_iff.mp he, hv⟩,
      fun ⟨e, he, hv⟩ => ⟨e, hp.mem_iff.mpr he, hv⟩⟩

/-- Witness of C12: two distinct integer keys; the value `5` is found under key `2`. -/
theorem ContainsValue_true_iff_of_refl_witness :
    DistinctKeys (⟨[(GoVal.int 1, [GoVal.int 10, GoVal.nan]), (GoVal.int 2, [GoVal.int 5])]⟩
      : MultiMap GoVal GoVal) ∧
    KeysReflexive (⟨[(GoVal.int 1, [GoVal.int 10, GoVal.nan]), (GoVal.int 2, [GoVal.int 5])]⟩
      : MultiMap GoVal GoVal) ∧
    (ContainsValue (⟨[(GoVal.int 1, [GoVal.int 10, GoVal.nan]), (GoVal.int 2, [GoVal.int 5])]⟩
        : MultiMap GoVal GoVal) (GoVal.int 5) = true ↔
      ∃ k : GoVal,
        Contains (⟨[(GoVal.int 1, [GoVal.int 10, GoVal.nan]), (GoVal.int 2, [GoVal.int 5])]⟩
          : MultiMap GoVal GoVal) k (GoVal.int 5) = true) :=
  ⟨by decide, by decide,
    (ContainsValue_true_iff_of_refl
      (⟨[(GoVal.int 1, [GoVal.int 10, GoVal.nan]), (GoVal.int 2, [GoVal.int 5])]⟩
        : MultiMap GoVal GoVal) (GoVal.int 5)).2.1 (by decide) (by decide)⟩

/-- Counterexample to C12 as stated: after `Put(NaN, 5)` on `New()`,
`ContainsValue(5)` is true while `Contains(k, 5)` is false for every key `k`. -/
theorem ContainsValue_NaN_key_no_Contains :
    ContainsValue (Put (New : MultiMap GoVal GoVal) GoVal.nan (GoVal.int 5)) (GoVal.int 5)
      = true ∧
    ∀ k : GoVal,
      Contains (Put (New : MultiMap GoVal GoVal) GoVal.nan (GoVal.int 5)) k (GoVal.int 5)
        = false := by
  refine ⟨by decide, ?_⟩
  intro k
  cases k <;> rfl

end Iface

/-! ## The claim on `PutAll` and a slice that shares the backing array of the bucket -/

/-- On the bucket `[10, 20, 10, 30]` and `Remove(1, 10)` the heap model gives the bucket
of the base model, `[20, 30, 30]`. -/
theorem Alias_Remove_duplicate :
    Alias.bucket (Alias.Remove (Alias.Put (Alias.Put (Alias.Put (Alias.Put
      (Alias.New : Alias.State Nat (Option Nat)) 1 (some 10)) 1 (some 20)) 1 (some 10))
      1 (some 30)) 1 (some 10)) 1 = [some 20, some 30, some 30] := by
  decide

/-- Claim C6, evaluated on the code with slice headers: after `Put(1, 10)`,
`Put(1, 20)`, `Put(1, 30)`, `vs, _ := Get(1)` and `Remove(1, 10)`, the slice `vs` reads
`[20, 30, 30]`; `PutAll(1, vs)` leaves the bucket `[20, 30, 20, 30, 20]`, because the
first `Put` of the loop overwrites the third element of `vs` before the loop reads it,
whereas `Put(1, v)` for each of the values `20, 30, 30` leaves `[20, 30, 20, 30, 30]`. -/
theorem PutAll_aliased_slice_rereads :
    Alias.view Alias.afterRemove.heap Alias.heldSlice = [some 20, some 30, some 30] ∧
    Alias.bucket Alias.afterRemove 1 = [some 20, some 30] ∧
    Alias.bucket (Alias.PutAll Alias.afterRemove 1 Alias.heldSlice) 1
      = [some 20, some 30, some 20, some 30, some 20] ∧
    Alias.bucket (Alias.putEach Alias.afterRemove 1 [some 20, some 30, some 30]) 1
      = [some 20, some 30, some 20, some 30, some 30] := by
  decide

end MultiMap
